import Mathlib

/-!
Verification development for the Viscum agent runtime.

This file gives a shallow embedding of the tool-call reconciliation core:
the message model, `ToolCallProcessor` (createToolMessages,
findLastAIMessageWithTools, processMessages, validateToolCalls), the
`ToolExecutor`, the planning `Node`, the workflow controller's conditional
edge, and the web chat route's streaming extraction — and proves the
spec-level properties about them.
-/

/-- JavaScript JSON values, used to model tool arguments and results. -/
inductive Json where
  | null : Json
  | bool (b : Bool) : Json
  | num (n : Int) : Json
  | str (s : String) : Json
  | arr (elems : List Json) : Json
  | obj (fields : List (String × Json)) : Json

mutual

/-- Decidable equality for `Json` (the derive handler does not support
this nested inductive). -/
def Json.decEq : (a b : Json) → Decidable (a = b)
  | .null, .null => isTrue rfl
  | .bool x, .bool y =>
    if h : x = y then isTrue (by rw [h])
    else isFalse (by intro hc; cases hc; exact h rfl)
  | .num x, .num y =>
    if h : x = y then isTrue (by rw [h])
    else isFalse (by intro hc; cases hc; exact h rfl)
  | .str x, .str y =>
    if h : x = y then isTrue (by rw [h])
    else isFalse (by intro hc; cases hc; exact h rfl)
  | .arr xs, .arr ys =>
    match Json.decEqList xs ys with
    | isTrue h => isTrue (by rw [h])
    | isFalse h => isFalse (by intro hc; cases hc; exact h rfl)
  | .obj xs, .obj ys =>
    match Json.decEqFields xs ys with
    | isTrue h => isTrue (by rw [h])
    | isFalse h => isFalse (by intro hc; cases hc; exact h rfl)
  | .null, .bool _ | .null, .num _ | .null, .str _ | .null, .arr _
  | .null, .obj _ => isFalse (by intro h; cases h)
  | .bool _, .null | .bool _, .num _ | .bool _, .str _ | .bool _, .arr _
  | .bool _, .obj _ => isFalse (by intro h; cases h)
  | .num _, .null | .num _, .bool _ | .num _, .str _ | .num _, .arr _
  | .num _, .obj _ => isFalse (by intro h; cases h)
  | .str _, .null | .str _, .bool _ | .str _, .num _ | .str _, .arr _
  | .str _, .obj _ => isFalse (by intro h; cases h)
  | .arr _, .null | .arr _, .bool _ | .arr _, .num _ | .arr _, .str _
  | .arr _, .obj _ => isFalse (by intro h; cases h)
  | .obj _, .null | .obj _, .bool _ | .obj _, .num _ | .obj _, .str _
  | .obj _, .arr _ => isFalse (by intro h; cases h)

/-- Decidable equality for lists of `Json`. -/
def Json.decEqList : (a b : List Json) → Decidable (a = b)
  | [], [] => isTrue rfl
  | [], _ :: _ => isFalse (by intro h; cases h)
  | _ :: _, [] => isFalse (by intro h; cases h)
  | x :: xs, y :: ys =>
    match Json.decEq x y, Json.decEqList xs ys with
    | isTrue h1, isTrue h2 => isTrue (by rw [h1, h2])
    | isFalse h1, _ => isFalse (by intro hc; cases hc; exact h1 rfl)
    | _, isFalse h2 => isFalse (by intro hc; cases hc; exact h2 rfl)

/-- Decidable equality for `Json` object field lists. -/
def Json.decEqFields : (a b : List (String × Json)) → Decidable (a = b)
  | [], [] => isTrue rfl
  | [], _ :: _ => isFalse (by intro h; cases h)
  | _ :: _, [] => isFalse (by intro h; cases h)
  | (k1, v1) :: xs, (k2, v2) :: ys =>
    if h1 : k1 = k2 then
      match Json.decEq v1 v2, Json.decEqFields xs ys with
      | isTrue h2, isTrue h3 => isTrue (by rw [h1, h2, h3])
      | isFalse h2, _ => isFalse (by intro hc; cases hc; exact h2 rfl)
      | _, isFalse h3 => isFalse (by intro hc; cases hc; exact h3 rfl)
    else isFalse (by intro hc; cases hc; exact h1 rfl)

end

instance : DecidableEq Json := Json.decEq

/-- Decidable equality for `Except`, used to evaluate the fallible pass on
concrete inputs. -/
instance {α β : Type} [DecidableEq α] [DecidableEq β] : DecidableEq (Except α β) :=
  fun a b =>
  match a, b with
  | Except.error e1, Except.error e2 =>
    if h : e1 = e2 then isTrue (by rw [h])
    else isFalse (by intro hc; cases hc; exact h rfl)
  | Except.ok v1, Except.ok v2 =>
    if h : v1 = v2 then isTrue (by rw [h])
    else isFalse (by intro hc; cases hc; exact h rfl)
  | Except.error _, Except.ok _ => isFalse (by intro hc; cases hc)
  | Except.ok _, Except.error _ => isFalse (by intro hc; cases hc)

/-- A LangChain tool-call request as carried by an `AIMessage`
(`tool_calls` entries): `id`, `name`, `args`. A missing/empty id
(`!tc.id` in the source) is modelled as the empty string. -/
structure LCToolCall where
  id : String
  name : String
  args : Json
deriving DecidableEq

/-- The LangChain message union the processor dispatches on via
`instanceof`: SystemMessage, HumanMessage, AIMessage (with its
`tool_calls` list; an absent `tool_calls` field is the empty list) and
ToolMessage (with its `tool_call_id`; a falsy id is the empty string). -/
inductive Message where
  | system (content : String) : Message
  | human (content : String) : Message
  | ai (content : String) (tool_calls : List LCToolCall) : Message
  | tool (content : String) (tool_call_id : String) : Message
deriving DecidableEq

/-- A pending tool call handed to the executor
(`type ToolCall = \x7b name; args \x7d` in memory/types). -/
structure PendingToolCall where
  name : String
  args : Json
deriving DecidableEq

/-- `type ToolResult = \x7b name; result \x7d`: the record produced by
executing one pending tool call. -/
structure ToolResultRecord where
  name : String
  result : Json
deriving DecidableEq

/-- A registered tool: its `execute` capability, which either returns a
value or throws/rejects with an error message. -/
structure Tool where
  execute : Json → Except String Json

/-- The LangGraph `AgentState` channels relevant to the loop:
`messages`, `toolCalls`, `toolResults` (the `agentType` channel is not
read by any property below). -/
structure AgentStateR where
  messages : List Message
  toolCalls : List PendingToolCall
  toolResults : List ToolResultRecord
deriving DecidableEq

/-- The model capability's response: an assistant message with content and
optional tool-call requests (`response.tool_calls || []`). -/
structure ModelResponse where
  content : String
  tool_calls : List LCToolCall
deriving DecidableEq

/-- The exception escaping `ToolExecutor.executeTools`: both the missing
tool path and the failing `execute` path end in the catch block, whose
`logger.error("执行 Tool 失败: " + name, ...)` itself throws. -/
inductive ExecError where
  | toolFailed (name : String) : ExecError
deriving DecidableEq

/-- Spaces used by the pretty printer's indentation. -/
def spaces (n : Nat) : String :=
  String.mk (List.replicate n ' ')

/-- Quote a string as a JSON string literal (escaping quote, backslash and
newline as `JSON.stringify` does). -/
def jsonQuote (s : String) : String :=
  "\"" ++ String.join (s.toList.map fun ch =>
    if ch = '"' then "\\\""
    else if ch = '\\' then "\\\\"
    else if ch = '\n' then "\\n"
    else String.singleton ch) ++ "\""

mutual

/-- Model of `JSON.stringify(value, null, 2)`: two-space indented
pretty-printing, at a given current indentation level. -/
def jsonStringify : Json → Nat → String
  | .null, _ => "null"
  | .bool b, _ => if b then "true" else "false"
  | .num n, _ => toString n
  | .str s, _ => jsonQuote s
  | .arr [], _ => "[]"
  | .arr (x :: xs), ind =>
    "[\n" ++ jsonStringifyItems (x :: xs) (ind + 2) ++ "\n" ++ spaces ind ++ "]"
  | .obj [], _ => "\x7b\x7d"
  | .obj (f :: fs), ind =>
    "\x7b\n" ++ jsonStringifyFields (f :: fs) (ind + 2) ++ "\n" ++ spaces ind ++ "\x7d"

/-- Array elements of `jsonStringify`, one per line. -/
def jsonStringifyItems : List Json → Nat → String
  | [], _ => ""
  | [x], ind => spaces ind ++ jsonStringify x ind
  | x :: y :: xs, ind =>
    spaces ind ++ jsonStringify x ind ++ ",\n" ++ jsonStringifyItems (y :: xs) ind

/-- Object fields of `jsonStringify`, one per line. -/
def jsonStringifyFields : List (String × Json) → Nat → String
  | [], _ => ""
  | [(k, v)], ind => spaces ind ++ jsonQuote k ++ ": " ++ jsonStringify v ind
  | (k, v) :: g :: fs, ind =>
    spaces ind ++ jsonQuote k ++ ": " ++ jsonStringify v ind ++ ",\n" ++
      jsonStringifyFields (g :: fs) ind

end

/-- The serialization step of `ToolCallProcessor.createToolMessages`:
`typeof result === "string" ? result : JSON.stringify(result, null, 2)`. -/
def serializeResult (result : Json) : String :=
  match result with
  | .str s => s
  | r => jsonStringify r 0

/-- The indexed `forEach` body of `ToolCallProcessor.createToolMessages`:
for the result at `index`, look up `tool_calls[index]`; when it is missing
or has a falsy id, log a warning and skip; otherwise emit a ToolMessage
with that request's id and the serialized result content. -/
def ctmGo (tool_calls : List LCToolCall) (toolResults : List ToolResultRecord)
    (index : Nat) : List Message :=
  match toolResults with
  | [] => []
  | toolResult :: rest =>
    (match tool_calls[index]? with
     | none => []
     | some toolCall =>
       if toolCall.id = "" then []
       else [Message.tool (serializeResult toolResult.result) toolCall.id])
    ++ ctmGo tool_calls rest (index + 1)

/-- `ToolCallProcessor.createToolMessages`: zip the result records
positionally against the target assistant message's `tool_calls`; with no
target (or one without `tool_calls`) return the empty list. -/
def createToolMessages (toolResults : List ToolResultRecord)
    (lastAIMessageWithTools : Option Message) : List Message :=
  match lastAIMessageWithTools with
  | some (.ai _ tool_calls) => ctmGo tool_calls toolResults 0
  | _ => []

/-- An `AIMessage` with a non-empty `tool_calls` list. -/
def isAIWithTools (m : Message) : Bool :=
  match m with
  | .ai _ tool_calls => !tool_calls.isEmpty
  | _ => false

/-- `ToolCallProcessor.findLastAIMessageWithTools`: scan history from the
end for the most recent AIMessage carrying tool calls. -/
def findLastAIMessageWithTools (messages : List Message) : Option Message :=
  messages.reverse.find? isAIWithTools

/-- One step of the first pass of `processMessages`: record a ToolMessage
with a truthy `tool_call_id` in the map (later entries overwrite). -/
def toolMapInsert (m : String → Option Message) (msg : Message) :
    String → Option Message :=
  match msg with
  | .tool c id =>
    if id = "" then m
    else fun k => if k = id then some (Message.tool c id) else m k
  | _ => m

/-- The first pass of `processMessages`: collect all ToolMessages from
history, then the newly created ones (which overwrite on id collision). -/
def collectToolMap (messages newToolMessages : List Message) :
    String → Option Message :=
  newToolMessages.foldl toolMapInsert (messages.foldl toolMapInsert (fun _ => none))

/-- The inner `forEach` of the second pass of `processMessages`: append
the mapped ToolMessage of one request of an included assistant message,
skipping requests with falsy or unmapped ids and ToolMessages already
present. -/
def pass2inner (toolMessageMap : String → Option Message)
    (a : List Message) (tc : LCToolCall) : List Message :=
  if tc.id = "" then a
  else match toolMessageMap tc.id with
    | some toolMsg => if toolMsg ∈ a then a else a ++ [toolMsg]
    | none => a

/-- The non-throwing outcomes of one step of the second pass of
`processMessages`: an AIMessage with tool calls is appended only when
every request id is truthy and present in the map, followed by its mapped
ToolMessages in request order; a not-fully-covered AIMessage is dropped
(the warn diagnostic). A ToolMessage with a truthy id is appended unless
already present. Everything else is appended unchanged. The faithful step
`pass2stepE` below returns `ok` of this function except on the diagnostic
error path. -/
def pass2step (toolMessageMap : String → Option Message)
    (acc : List Message) (msg : Message) : List Message :=
  match msg with
  | .ai c tool_calls =>
    if tool_calls.isEmpty then acc ++ [Message.ai c tool_calls]
    else if ∀ tc ∈ tool_calls, tc.id ≠ "" ∧ (toolMessageMap tc.id).isSome then
      tool_calls.foldl (pass2inner toolMessageMap) (acc ++ [Message.ai c tool_calls])
    else acc
  | .tool c id =>
    if id = "" then acc ++ [Message.tool c id]
    else if Message.tool c id ∈ acc then acc
    else acc ++ [Message.tool c id]
  | other => acc ++ [other]

/-- One step of the second pass of `processMessages`, with its error path:
a not-fully-covered AIMessage with tool calls is skipped with a warning
when pending work (`hasToolResults`/`hasPendingToolCalls`) explains the
gap, but without pending work the diagnostic is `logger.error`, which
logs and then throws, aborting the whole pass — modelled as
`Except.error`. -/
def pass2stepE (toolMessageMap : String → Option Message)
    (hasToolResults hasPendingToolCalls : Bool)
    (acc : List Message) (msg : Message) : Except String (List Message) :=
  match msg with
  | .ai c tool_calls =>
    if tool_calls.isEmpty then Except.ok (acc ++ [Message.ai c tool_calls])
    else if ∀ tc ∈ tool_calls, tc.id ≠ "" ∧ (toolMessageMap tc.id).isSome then
      Except.ok (tool_calls.foldl (pass2inner toolMessageMap)
        (acc ++ [Message.ai c tool_calls]))
    else if hasToolResults || hasPendingToolCalls then Except.ok acc
    else Except.error "发现未完成的 tool_calls，且没有待处理的工具结果"
  | .tool c id =>
    if id = "" then Except.ok (acc ++ [Message.tool c id])
    else if Message.tool c id ∈ acc then Except.ok acc
    else Except.ok (acc ++ [Message.tool c id])
  | other => Except.ok (acc ++ [other])

/-- `ToolCallProcessor.processMessages`: the two-pass filtering
reconciliation. The pass either returns the filtered list or throws: with
both pending-work flags false, the first assistant message whose tool
calls are not all covered triggers the throwing `logger.error`
diagnostic, aborting the pass. -/
def processMessages (messages newToolMessages : List Message)
    (hasToolResults hasPendingToolCalls : Bool) : Except String (List Message) :=
  let toolMessageMap := collectToolMap messages newToolMessages
  messages.foldlM (pass2stepE toolMessageMap hasToolResults hasPendingToolCalls) []

/-- One reconciliation pass as wired in `Node.getMessageList`: create the
ToolMessages for the new result batch against the most recent assistant
message with tool calls, then run the filtering pass over history. -/
def reconcile (messages : List Message) (toolResults : List ToolResultRecord)
    (hasPendingToolCalls : Bool) : Except String (List Message) :=
  processMessages messages
    (createToolMessages toolResults (findLastAIMessageWithTools messages))
    (!toolResults.isEmpty) hasPendingToolCalls

/-- Insertion into a JavaScript `Set` modelled as an insertion-ordered
duplicate-free list. -/
def insertUniq (l : List String) (x : String) : List String :=
  if x ∈ l then l else l ++ [x]

/-- The request-id `Set` of `validateToolCalls`: every truthy tool-call
request id of every AIMessage, in insertion order. -/
def collectToolCallIds (messages : List Message) : List String :=
  messages.foldl (fun s msg =>
    match msg with
    | .ai _ tool_calls =>
      tool_calls.foldl (fun s2 tc => if tc.id = "" then s2 else insertUniq s2 tc.id) s
    | _ => s) []

/-- The result-id `Set` of `validateToolCalls`: every truthy
`tool_call_id` of every ToolMessage, in insertion order. -/
def collectToolMessageIds (messages : List Message) : List String :=
  messages.foldl (fun s msg =>
    match msg with
    | .tool _ id => if id = "" then s else insertUniq s id
    | _ => s) []

/-- The result of `ToolCallProcessor.validateToolCalls`. -/
structure ValidationResult where
  isValid : Bool
  missingToolCallIds : List String
deriving DecidableEq

/-- `ToolCallProcessor.validateToolCalls`: collect request ids and result
ids over the final list; the missing ids are the request ids with no
matching result id, and the list is valid when there are none. -/
def validateToolCalls (messages : List Message) : ValidationResult :=
  let toolCallIds := collectToolCallIds messages
  let toolMessageIds := collectToolMessageIds messages
  let missing := toolCallIds.filter (fun id => !toolMessageIds.contains id)
  ⟨missing.length == 0, missing⟩

/-- The validation step of `Node.getLLMWithTools`. On an invalid message
sequence both diagnostic branches call `logger.error`, which throws after
logging, so the turn fails; nothing is patched or synthesized. -/
def getLLMWithToolsCheck (messages : List Message)
    (toolResults : List ToolResultRecord) (toolCalls : List PendingToolCall) :
    Except String Unit :=
  if (validateToolCalls messages).isValid then Except.ok ()
  else if toolResults.isEmpty then
    Except.error "发现未完成的工具调用，无法发送给 LLM"
  else
    Except.error "发现未完成的工具调用，即使有 toolResults"

/-- `ToolExecutor.executeTools`. The control flow is forced by the
throwing logger (`logger.error` logs and then throws): the missing-tool
branch throws inside the `try`, and the `catch` block calls
`logger.error` before its `toolResults.push`, which rethrows; the push is
unreachable and the whole batch aborts. `Except.error` models the
exception escaping the function. -/
def executeTools (registry : String → Option Tool) :
    List PendingToolCall → Except ExecError (List ToolResultRecord)
  | [] => Except.ok []
  | toolCall :: rest =>
    match registry toolCall.name with
    | none => Except.error (ExecError.toolFailed toolCall.name)
    | some tool =>
      match tool.execute toolCall.args with
      | Except.ok result =>
        match executeTools registry rest with
        | Except.ok toolResults =>
          Except.ok ({ name := toolCall.name, result := result } :: toolResults)
        | Except.error e => Except.error e
      | Except.error _ => Except.error (ExecError.toolFailed toolCall.name)

/-- SystemMessage recognizer. -/
def isSystemMessage (m : Message) : Bool :=
  match m with
  | .system _ => true
  | _ => false

/-- `Node.getMessageList`: prepend the configured system prompt when
history carries no SystemMessage, reconcile the new tool results into
ToolMessages, and run the filtering pass; a throw inside the pass
propagates out of `getMessageList`. -/
def getMessageList (systemPrompt : Option String) (state : AgentStateR) :
    Except String (List Message) :=
  let hasSystemMessage := state.messages.any isSystemMessage
  let allMessages : List Message :=
    if !hasSystemMessage then
      match systemPrompt with
      | some p => [Message.system p]
      | none => []
    else []
  let lastAIMessageWithTools := findLastAIMessageWithTools state.messages
  let newToolMessages := createToolMessages state.toolResults lastAIMessageWithTools
  let hasToolResults := !state.toolResults.isEmpty
  let hasPendingToolCalls := !state.toolCalls.isEmpty
  match processMessages state.messages newToolMessages hasToolResults hasPendingToolCalls with
  | Except.error e => Except.error e
  | Except.ok finalMessages =>
    Except.ok (if !hasSystemMessage && !allMessages.isEmpty then allMessages ++ finalMessages
      else finalMessages)

/-- `Node.execute` followed by the LangGraph channel reducers: build the
message list, validate it (an invalid one throws, aborting the turn),
invoke the model oracle; with tool calls present execute them (an executor
exception aborts the turn) and store their records with cleared
`toolCalls`; otherwise attach any leftover new ToolMessages and the final
response and clear `toolResults`. The LangChain `tool_calls` args are
already objects, so the defensive `JSON.parse` branch never fires and the
arguments pass through unchanged. -/
def nodeExecute (oracle : List Message → ModelResponse)
    (registry : String → Option Tool) (systemPrompt : Option String)
    (state : AgentStateR) : Option AgentStateR :=
  match getMessageList systemPrompt state with
  | Except.error _ => none
  | Except.ok allMessages =>
    match getLLMWithToolsCheck allMessages state.toolResults state.toolCalls with
    | Except.error _ => none
    | Except.ok () =>
      let response := oracle allMessages
      let toolCalls := response.tool_calls
      if toolCalls.length > 0 then
        match executeTools registry (toolCalls.map fun tc => ⟨tc.name, tc.args⟩) with
        | Except.error _ => none
        | Except.ok toolResults =>
          some { messages := state.messages ++ [Message.ai response.content response.tool_calls],
                 toolCalls := [], toolResults := toolResults }
      else
        let newToolMessages :=
          createToolMessages state.toolResults (findLastAIMessageWithTools state.messages)
        let messagesToReturn :=
          if newToolMessages.isEmpty then [Message.ai response.content response.tool_calls]
          else newToolMessages ++ [Message.ai response.content response.tool_calls]
        some { messages := state.messages ++ messagesToReturn,
               toolCalls := state.toolCalls, toolResults := [] }

/-- The conditional-edge function of `AgentWorkflow.buildWorkflow`: loop
back into the agent node while `toolResults` is non-empty, else END. -/
def workflowRoute (state : AgentStateR) : String :=
  if state.toolResults.length > 0 then "continue" else "end"

/-- Fuel-bounded unfolding of the compiled LangGraph loop: run the agent
node, then follow the conditional edge. `none` models a thrown error or an
exhausted recursion limit. -/
def runWorkflow (step : AgentStateR → Option AgentStateR) :
    Nat → AgentStateR → Option AgentStateR
  | 0, _ => none
  | fuel + 1, state =>
    match step state with
    | none => none
    | some state2 =>
      if workflowRoute state2 = "continue" then runWorkflow step fuel state2
      else some state2

/-- `ChatManager.processUserInput`'s construction of the turn's initial
state: prior history plus the new HumanMessage, with empty scratch. -/
def mkTurnState (prev : AgentStateR) (userInput : String) : AgentStateR :=
  { messages := prev.messages ++ [Message.human userInput],
    toolCalls := [], toolResults := [] }

/-- A partial state update yielded by the LangGraph stream
(`stateUpdate[nodeName]` in the chat route): each channel may be absent. -/
structure PartialUpdate where
  messages : Option (List Message)
  toolCalls : Option (List PendingToolCall)
  toolResults : Option (List ToolResultRecord)

/-- The SSE payload kinds the chat route emits: an incremental delta, the
final full message, and the terminal `[DONE]` sentinel. -/
inductive SSEEvent where
  | delta (content : String) : SSEEvent
  | full (content : String) : SSEEvent
  | done : SSEEvent
deriving DecidableEq

/-- The backwards scan of the chat route's `extractAIResponse`, walking
the reversed message list: return the content of the most recent
AIMessage without tool calls and with truthy content; failing that, fall
back to the most recent AIMessage's content (even one with tool calls)
when truthy; else null. -/
def extractScan : List Message → Option Message → Option String
  | [], lastAIMessage =>
    match lastAIMessage with
    | some (.ai c _) => if c = "" then none else some c
    | _ => none
  | msg :: rest, lastAIMessage =>
    match msg with
    | .ai c tool_calls =>
      let lastAI2 :=
        match lastAIMessage with
        | some m => some m
        | none => some (Message.ai c tool_calls)
      if tool_calls.isEmpty then
        if c = "" then extractScan rest lastAI2 else some c
      else extractScan rest lastAI2
    | _ => extractScan rest lastAIMessage

/-- The chat route's `extractAIResponse` over the accumulated state. -/
def extractAIResponse (state : AgentStateR) : Option String :=
  if state.messages.isEmpty then none
  else extractScan state.messages.reverse none

/-- The route's accumulation of a partial state update: messages are
concatenated; `toolCalls`/`toolResults` are replaced when present. -/
def applyUpdate (acc : AgentStateR) (u : PartialUpdate) : AgentStateR :=
  { messages :=
      match u.messages with
      | some ms => acc.messages ++ ms
      | none => acc.messages,
    toolCalls :=
      match u.toolCalls with
      | some t => t
      | none => acc.toolCalls,
    toolResults :=
      match u.toolResults with
      | some t => t
      | none => acc.toolResults }

/-- The loop state of the route's stream consumer: the previously emitted
text, the events enqueued so far, and the accumulated agent state. -/
structure StreamAcc where
  lastContent : String
  events : List SSEEvent
  accumulatedState : AgentStateR
deriving DecidableEq

/-- One iteration of the route's `for await` loop: fold in the update,
re-extract the running response, and when it is truthy and differs from
the previously emitted text, emit the suffix beyond the previous text as a
delta (when non-empty) and remember the new text. -/
def streamStep (st : StreamAcc) (u : PartialUpdate) : StreamAcc :=
  let acc2 := applyUpdate st.accumulatedState u
  match extractAIResponse acc2 with
  | some currentResponse =>
    if currentResponse ≠ st.lastContent then
      let delta := currentResponse.drop st.lastContent.length
      if delta ≠ "" then
        { lastContent := currentResponse,
          events := st.events ++ [SSEEvent.delta delta],
          accumulatedState := acc2 }
      else { lastContent := st.lastContent, events := st.events, accumulatedState := acc2 }
    else { lastContent := st.lastContent, events := st.events, accumulatedState := acc2 }
  | none => { lastContent := st.lastContent, events := st.events, accumulatedState := acc2 }

/-- The whole streaming body of the chat route's `POST`: consume the state
stream, then emit the final full message (when truthy) and the `[DONE]`
sentinel. -/
def processStream (updates : List PartialUpdate) (initState : AgentStateR) :
    List SSEEvent :=
  let final := updates.foldl streamStep ⟨"", [], initState⟩
  let withFull :=
    match extractAIResponse final.accumulatedState with
    | some finalResponse =>
      if finalResponse ≠ "" then final.events ++ [SSEEvent.full finalResponse]
      else final.events
    | none => final.events
  withFull ++ [SSEEvent.done]

/-- Modelled from the spec, for comparison with the code (claim C2's
hypothesis): a history is "fully-settled" when every tool-call request id
of every Assistant message already has a matching ToolResult message
somewhere in the history. -/
def claimFullySettled (messages : List Message) : Bool :=
  messages.all fun m =>
    match m with
    | .ai _ tool_calls =>
      tool_calls.all fun tc =>
        messages.any fun t =>
          match t with
          | .tool _ id => id == tc.id
          | _ => false
    | _ => true

/-- The contribution of one message to `toolIds`: its `tool_call_id` when
it is a ToolMessage with a truthy id. -/
def toolIdHead (msg : Message) : List String :=
  match msg with
  | Message.tool _ id => if id = "" then [] else [id]
  | _ => []

/-- The truthy `tool_call_id`s of the ToolMessages of a history, in
order. -/
def toolIds : List Message → List String
  | [] => []
  | msg :: rest => toolIdHead msg ++ toolIds rest

/-- The well-formed settled histories of the amended claim C2: a
sequence of messages in which every AIMessage with tool calls is
immediately followed by its matching ToolResult messages, one per
request, in request order, each request carrying a truthy id. -/
inductive SettledShape : List Message → Prop where
  | nil : SettledShape []
  | skip (m : Message) (rest : List Message) :
      isAIWithTools m = false → SettledShape rest → SettledShape (m :: rest)
  | block (c : String) (tcs : List LCToolCall) (ts rest : List Message) :
      tcs ≠ [] →
      List.Forall₂ (fun tc t => tc.id ≠ "" ∧ ∃ ct, t = Message.tool ct tc.id) tcs ts →
      SettledShape rest →
      SettledShape (Message.ai c tcs :: (ts ++ rest))

section Lemmas

/-- Each inner step of the assistant branch only ever appends. -/
theorem pass2inner_extends (tmap : String → Option Message)
    (a : List Message) (tc : LCToolCall) :
    ∃ t, pass2inner tmap a tc = a ++ t := by
  unfold pass2inner
  split
  · exact ⟨[], (List.append_nil a).symm⟩
  · split
    · split
      · exact ⟨[], (List.append_nil a).symm⟩
      · exact ⟨_, rfl⟩
    · exact ⟨[], (List.append_nil a).symm⟩

/-- A fold whose step only appends also only appends. -/
theorem foldl_extends {β : Type} (f : List Message → β → List Message)
    (hf : ∀ a b, ∃ t, f a b = a ++ t) :
    ∀ (l : List β) (acc : List Message), ∃ t, l.foldl f acc = acc ++ t := by
  intro l
  induction l with
  | nil => exact fun acc => ⟨[], (List.append_nil acc).symm⟩
  | cons x xs ih =>
    intro acc
    obtain ⟨t1, h1⟩ := hf acc x
    obtain ⟨t2, h2⟩ := ih (f acc x)
    exact ⟨t1 ++ t2, by rw [List.foldl_cons, h2, h1, List.append_assoc]⟩

/-- Each filtering step only ever appends to the accumulator. -/
theorem pass2step_extends (tmap : String → Option Message)
    (acc : List Message) (msg : Message) :
    ∃ t, pass2step tmap acc msg = acc ++ t := by
  cases msg with
  | system c => exact ⟨[Message.system c], rfl⟩
  | human c => exact ⟨[Message.human c], rfl⟩
  | ai c tool_calls =>
    simp only [pass2step]
    split
    · exact ⟨[Message.ai c tool_calls], rfl⟩
    · split
      · obtain ⟨t, ht⟩ :=
          foldl_extends (pass2inner tmap) (pass2inner_extends tmap) tool_calls
            (acc ++ [Message.ai c tool_calls])
        exact ⟨[Message.ai c tool_calls] ++ t, by rw [ht, List.append_assoc]⟩
      · exact ⟨[], (List.append_nil acc).symm⟩
  | tool c id =>
    simp only [pass2step]
    split
    · exact ⟨[Message.tool c id], rfl⟩
    · split
      · exact ⟨[], (List.append_nil acc).symm⟩
      · exact ⟨[Message.tool c id], rfl⟩

/-- Whatever is in the accumulator stays there across the filtering
fold. -/
theorem mem_foldl_pass2step_of_mem (tmap : String → Option Message)
    (l : List Message) (acc : List Message) (m : Message) (hm : m ∈ acc) :
    m ∈ l.foldl (pass2step tmap) acc := by
  induction l generalizing acc with
  | nil => exact hm
  | cons x xs ih =>
    obtain ⟨t, ht⟩ := pass2step_extends tmap acc x
    exact ih (pass2step tmap acc x) (by rw [ht]; exact List.mem_append_left t hm)

end Lemmas

section Lemmas2

/-- Every ToolMessage of the input history survives the filtering pass
(whether or not any included assistant message references it). -/
theorem tool_mem_foldl_pass2step (tmap : String → Option Message)
    (l : List Message) (acc : List Message) (c id : String)
    (h : Message.tool c id ∈ acc ∨ Message.tool c id ∈ l) :
    Message.tool c id ∈ l.foldl (pass2step tmap) acc := by
  induction l generalizing acc with
  | nil => simpa using h
  | cons x xs ih =>
    rcases h with hacc | hl
    · obtain ⟨t, ht⟩ := pass2step_extends tmap acc x
      exact ih (pass2step tmap acc x) (Or.inl (by rw [ht]; exact List.mem_append_left t hacc))
    · rcases List.mem_cons.mp hl with hx | hxs
      · refine ih (pass2step tmap acc x) (Or.inl ?_)
        rw [← hx]
        simp only [pass2step]
        split
        · exact List.mem_append_right acc (by simp)
        · split
          · assumption
          · exact List.mem_append_right acc (by simp)
      · exact ih (pass2step tmap acc x) (Or.inr hxs)

/-- Every entry of the ToolMessage map is a ToolMessage keyed by its own
truthy `tool_call_id`. -/
theorem foldl_toolMapInsert_entry (l : List Message)
    (m0 : String → Option Message) (k : String) (tm : Message)
    (h : (l.foldl toolMapInsert m0) k = some tm) :
    m0 k = some tm ∨ (∃ c, tm = Message.tool c k ∧ k ≠ "") := by
  induction l generalizing m0 with
  | nil => exact Or.inl h
  | cons x xs ih =>
    rcases ih (toolMapInsert m0 x) h with hstep | hshape
    · cases x with
      | tool c id =>
        simp only [toolMapInsert] at hstep
        split at hstep
        · exact Or.inl hstep
        · by_cases hk : k = id
          · subst hk
            simp only [if_pos rfl] at hstep
            exact Or.inr ⟨c, by injection hstep with h2; exact h2.symm, by tauto⟩
          · simp only [if_neg hk] at hstep
            exact Or.inl hstep
      | system c => exact Or.inl hstep
      | human c => exact Or.inl hstep
      | ai c tcs => exact Or.inl hstep
    · exact Or.inr hshape

/-- Entries of `collectToolMap` are ToolMessages keyed by their id. -/
theorem collectToolMap_entry (messages newToolMessages : List Message)
    (k : String) (tm : Message)
    (h : collectToolMap messages newToolMessages k = some tm) :
    ∃ c, tm = Message.tool c k ∧ k ≠ "" := by
  unfold collectToolMap at h
  rcases foldl_toolMapInsert_entry newToolMessages _ k tm h with h1 | hs
  · rcases foldl_toolMapInsert_entry messages _ k tm h1 with h2 | hs
    · simp at h2
    · exact hs
  · exact hs

/-- The completeness invariant maintained by the filtering pass: every
assistant message already admitted has, for each of its requests, a
matching ToolResult message already admitted. -/
def covered (tacc : List Message) : Prop :=
  ∀ c tcs, Message.ai c tcs ∈ tacc →
    ∀ tc ∈ tcs, ∃ ct, Message.tool ct tc.id ∈ tacc

/-- Unfolding of one inner step, by cases on the request id and the map
lookup. -/
theorem pass2inner_eq_of_lookup (tmap : String → Option Message)
    (a : List Message) (tc : LCToolCall) (tm : Message)
    (hne : ¬tc.id = "") (hq : tmap tc.id = some tm) :
    pass2inner tmap a tc = if tm ∈ a then a else a ++ [tm] := by
  unfold pass2inner
  rw [if_neg hne, hq]

/-- Anything the inner fold appends is one of the map's entries. -/
theorem mem_foldl_pass2inner (tmap : String → Option Message)
    (tcs : List LCToolCall) (a : List Message) (m : Message)
    (h : m ∈ tcs.foldl (pass2inner tmap) a) :
    m ∈ a ∨ ∃ k, tmap k = some m := by
  induction tcs generalizing a with
  | nil => exact Or.inl h
  | cons tc tcs ih =>
    rcases ih (pass2inner tmap a tc) h with ha | hmap
    · by_cases hne : tc.id = ""
      · unfold pass2inner at ha
        rw [if_pos hne] at ha
        exact Or.inl ha
      · rcases hq : tmap tc.id with _ | tm
        · unfold pass2inner at ha
          rw [if_neg hne, hq] at ha
          exact Or.inl ha
        · rw [pass2inner_eq_of_lookup tmap a tc tm hne hq] at ha
          by_cases hin : tm ∈ a
          · rw [if_pos hin] at ha
            exact Or.inl ha
          · rw [if_neg hin] at ha
            rcases List.mem_append.mp ha with h1 | h2
            · exact Or.inl h1
            · exact Or.inr ⟨tc.id, by rw [hq, List.mem_singleton.mp h2]⟩
    · exact Or.inr hmap

/-- After the inner fold, every request of the newly admitted assistant
message has its mapped ToolMessage in the accumulator. -/
theorem foldl_pass2inner_covers (tmap : String → Option Message)
    (tcs : List LCToolCall) (a : List Message)
    (hall : ∀ tc ∈ tcs, tc.id ≠ "" ∧ (tmap tc.id).isSome) :
    ∀ tc ∈ tcs, ∃ tm, tmap tc.id = some tm ∧
      tm ∈ tcs.foldl (pass2inner tmap) a := by
  induction tcs generalizing a with
  | nil => intro tc h; simp at h
  | cons tch tcs ih =>
    intro tc htc
    rcases List.mem_cons.mp htc with heq | hmem
    · obtain ⟨hne, hsome⟩ := hall tc htc
      obtain ⟨tm, htm⟩ := Option.isSome_iff_exists.mp hsome
      refine ⟨tm, htm, ?_⟩
      rw [List.foldl_cons]
      have hmem1 : tm ∈ pass2inner tmap a tch := by
        rw [heq] at hne htm
        rw [pass2inner_eq_of_lookup tmap a tch tm hne htm]
        split
        · assumption
        · exact List.mem_append_right a (by simp)
      obtain ⟨t, ht⟩ := foldl_extends (pass2inner tmap) (pass2inner_extends tmap)
        tcs (pass2inner tmap a tch)
      rw [ht]
      exact List.mem_append_left t hmem1
    · obtain ⟨tm, htm, hin⟩ :=
        ih (pass2inner tmap a tch) (fun x hx => hall x (List.mem_cons_of_mem tch hx)) tc hmem
      exact ⟨tm, htm, by rw [List.foldl_cons]; exact hin⟩

end Lemmas2

section Lemmas3

/-- Each filtering step preserves the completeness invariant. -/
theorem pass2step_covered (tmap : String → Option Message)
    (hmap : ∀ k tm, tmap k = some tm → ∃ ct, tm = Message.tool ct k)
    (acc : List Message) (msg : Message) (hcov : covered acc) :
    covered (pass2step tmap acc msg) := by
  cases msg with
  | system c =>
    intro c' tcs' hmem tc' htc'
    rcases List.mem_append.mp hmem with hold | hnew
    · obtain ⟨ct, hct⟩ := hcov c' tcs' hold tc' htc'
      exact ⟨ct, List.mem_append_left _ hct⟩
    · simp at hnew
  | human c =>
    intro c' tcs' hmem tc' htc'
    rcases List.mem_append.mp hmem with hold | hnew
    · obtain ⟨ct, hct⟩ := hcov c' tcs' hold tc' htc'
      exact ⟨ct, List.mem_append_left _ hct⟩
    · simp at hnew
  | ai c tcs =>
    simp only [pass2step]
    split
    · rename_i hemp
      intro c' tcs' hmem tc' htc'
      rcases List.mem_append.mp hmem with hold | hnew
      · obtain ⟨ct, hct⟩ := hcov c' tcs' hold tc' htc'
        exact ⟨ct, List.mem_append_left _ hct⟩
      · have : tcs' = tcs := by
          cases List.mem_singleton.mp hnew
          rfl
        rw [this] at htc'
        rw [List.isEmpty_iff.mp hemp] at htc'
        simp at htc'
    · split
      · rename_i hemp hall
        intro c' tcs' hmem tc' htc'
        rcases mem_foldl_pass2inner tmap tcs (acc ++ [Message.ai c tcs]) _ hmem
          with hbase | ⟨k, hk⟩
        · rcases List.mem_append.mp hbase with hold | hnew
          · obtain ⟨ct, hct⟩ := hcov c' tcs' hold tc' htc'
            obtain ⟨t, ht⟩ := foldl_extends (pass2inner tmap) (pass2inner_extends tmap)
              tcs (acc ++ [Message.ai c tcs])
            exact ⟨ct, by
              rw [ht]
              exact List.mem_append_left t (List.mem_append_left _ hct)⟩
          · have heq : Message.ai c' tcs' = Message.ai c tcs := List.mem_singleton.mp hnew
            have htcs : tcs' = tcs := by injection heq
            rw [htcs] at htc'
            obtain ⟨tm, htm, hin⟩ := foldl_pass2inner_covers tmap tcs
              (acc ++ [Message.ai c tcs]) hall tc' htc'
            obtain ⟨ct, hct⟩ := hmap tc'.id tm htm
            exact ⟨ct, by rw [← hct]; exact hin⟩
        · obtain ⟨ct, hct⟩ := hmap k _ hk
          simp at hct
      · exact hcov
  | tool c id =>
    simp only [pass2step]
    split
    · intro c' tcs' hmem tc' htc'
      rcases List.mem_append.mp hmem with hold | hnew
      · obtain ⟨ct, hct⟩ := hcov c' tcs' hold tc' htc'
        exact ⟨ct, List.mem_append_left _ hct⟩
      · simp at hnew
    · split
      · exact hcov
      · intro c' tcs' hmem tc' htc'
        rcases List.mem_append.mp hmem with hold | hnew
        · obtain ⟨ct, hct⟩ := hcov c' tcs' hold tc' htc'
          exact ⟨ct, List.mem_append_left _ hct⟩
        · simp at hnew

/-- The filtering fold preserves the completeness invariant. -/
theorem foldl_pass2step_covered (tmap : String → Option Message)
    (hmap : ∀ k tm, tmap k = some tm → ∃ ct, tm = Message.tool ct k)
    (l : List Message) :
    ∀ acc, covered acc → covered (l.foldl (pass2step tmap) acc) := by
  induction l with
  | nil => exact fun acc h => h
  | cons x xs ih =>
    intro acc hcov
    exact ih (pass2step tmap acc x) (pass2step_covered tmap hmap acc x hcov)

/-- A successful faithful step agrees with the non-throwing step. -/
theorem pass2stepE_ok (tmap : String → Option Message)
    (hasToolResults hasPendingToolCalls : Bool) (acc : List Message)
    (msg : Message) (out : List Message)
    (h : pass2stepE tmap hasToolResults hasPendingToolCalls acc msg = Except.ok out) :
    out = pass2step tmap acc msg := by
  cases msg with
  | system c =>
    injection h with h2
    exact h2.symm
  | human c =>
    injection h with h2
    exact h2.symm
  | ai c tcs =>
    simp only [pass2stepE] at h
    simp only [pass2step]
    by_cases hemp : tcs.isEmpty
    · rw [if_pos hemp] at h
      rw [if_pos hemp]
      injection h with h2
      exact h2.symm
    · rw [if_neg hemp] at h
      rw [if_neg hemp]
      by_cases hall : ∀ tc ∈ tcs, tc.id ≠ "" ∧ (tmap tc.id).isSome
      · rw [if_pos hall] at h
        rw [if_pos hall]
        injection h with h2
        exact h2.symm
      · rw [if_neg hall] at h
        rw [if_neg hall]
        by_cases hflag : (hasToolResults || hasPendingToolCalls) = true
        · rw [if_pos hflag] at h
          injection h with h2
          exact h2.symm
        · rw [if_neg hflag] at h
          cases h
  | tool c id =>
    simp only [pass2stepE] at h
    simp only [pass2step]
    by_cases hid : id = ""
    · rw [if_pos hid] at h
      rw [if_pos hid]
      injection h with h2
      exact h2.symm
    · rw [if_neg hid] at h
      rw [if_neg hid]
      by_cases hin : Message.tool c id ∈ acc
      · rw [if_pos hin] at h
        rw [if_pos hin]
        injection h with h2
        exact h2.symm
      · rw [if_neg hin] at h
        rw [if_neg hin]
        injection h with h2
        exact h2.symm

/-- A successful faithful fold agrees with the non-throwing fold. -/
theorem foldlM_pass2stepE_ok (tmap : String → Option Message)
    (hasToolResults hasPendingToolCalls : Bool) :
    ∀ (l acc out : List Message),
      l.foldlM (pass2stepE tmap hasToolResults hasPendingToolCalls) acc
        = Except.ok out →
      l.foldl (pass2step tmap) acc = out := by
  intro l
  induction l with
  | nil =>
    intro acc out h
    injection h with h2
  | cons x xs ih =>
    intro acc out h
    rw [List.foldlM_cons] at h
    rcases hx : pass2stepE tmap hasToolResults hasPendingToolCalls acc x with e | a
    · rw [hx] at h
      cases h
    · rw [hx] at h
      have h3 : xs.foldlM (pass2stepE tmap hasToolResults hasPendingToolCalls) a
          = Except.ok out := h
      rw [List.foldl_cons,
        ← pass2stepE_ok tmap hasToolResults hasPendingToolCalls acc x a hx]
      exact ih a out h3

/-- When no step can hit the error diagnostic — every assistant message
with tool calls is either fully covered or excused by pending work — the
faithful fold returns the non-throwing fold. -/
theorem foldlM_pass2stepE_no_throw (tmap : String → Option Message)
    (hasToolResults hasPendingToolCalls : Bool) :
    ∀ l : List Message,
      (∀ c tcs, Message.ai c tcs ∈ l →
        (∀ tc ∈ tcs, tc.id ≠ "" ∧ (tmap tc.id).isSome)
          ∨ (hasToolResults || hasPendingToolCalls) = true) →
      ∀ acc, l.foldlM (pass2stepE tmap hasToolResults hasPendingToolCalls) acc
        = Except.ok (l.foldl (pass2step tmap) acc) := by
  intro l
  induction l with
  | nil => intro _ acc; rfl
  | cons x xs ih =>
    intro hcond acc
    have hstep : pass2stepE tmap hasToolResults hasPendingToolCalls acc x
        = Except.ok (pass2step tmap acc x) := by
      cases x with
      | system c => rfl
      | human c => rfl
      | tool c id =>
        simp only [pass2stepE, pass2step]
        by_cases hid : id = ""
        · rw [if_pos hid, if_pos hid]
        · rw [if_neg hid, if_neg hid]
          by_cases hin : Message.tool c id ∈ acc
          · rw [if_pos hin, if_pos hin]
          · rw [if_neg hin, if_neg hin]
      | ai c tcs =>
        simp only [pass2stepE, pass2step]
        by_cases hemp : tcs.isEmpty
        · rw [if_pos hemp, if_pos hemp]
        · rw [if_neg hemp, if_neg hemp]
          by_cases hall : ∀ tc ∈ tcs, tc.id ≠ "" ∧ (tmap tc.id).isSome
          · rw [if_pos hall, if_pos hall]
          · rw [if_neg hall, if_neg hall]
            rcases hcond c tcs (by simp) with h1 | hflag
            · exact absurd h1 hall
            · rw [if_pos hflag]
    rw [List.foldlM_cons, hstep]
    show xs.foldlM (pass2stepE tmap hasToolResults hasPendingToolCalls)
      (pass2step tmap acc x) = _
    rw [List.foldl_cons]
    exact ih (fun c tcs hm => hcond c tcs (List.mem_cons_of_mem x hm))
      (pass2step tmap acc x)

/-- Every list the filtering pass successfully produces satisfies the
completeness invariant. -/
theorem processMessages_covered (messages newToolMessages : List Message)
    (hasToolResults hasPendingToolCalls : Bool) (out : List Message)
    (h : processMessages messages newToolMessages hasToolResults hasPendingToolCalls
      = Except.ok out) :
    covered out := by
  simp only [processMessages] at h
  rw [← foldlM_pass2stepE_ok (collectToolMap messages newToolMessages)
    hasToolResults hasPendingToolCalls messages [] out h]
  refine foldl_pass2step_covered _ ?_ messages [] ?_
  · intro k tm hk
    obtain ⟨ct, hct, _⟩ := collectToolMap_entry messages newToolMessages k tm hk
    exact ⟨ct, hct⟩
  · intro c tcs h2
    simp at h2

end Lemmas3

/-- Claim C1 (amended): for every history and tool-result batch, every
message list the reconciler's filtering pass produces includes an
Assistant message with tool-call requests only when every request id has a
matching ToolResult, and every included Assistant message's request ids
each have a matching ToolResult message somewhere in the output list (when
the pass instead hits its inconsistency diagnostic it throws and produces
no list at all). -/
theorem c1_reconcile_completeness (messages : List Message)
    (toolResults : List ToolResultRecord) (hasPendingToolCalls : Bool)
    (out : List Message)
    (hok : reconcile messages toolResults hasPendingToolCalls = Except.ok out)
    (c : String) (tcs : List LCToolCall) (h : Message.ai c tcs ∈ out) :
    ∀ tc ∈ tcs, ∃ ct, Message.tool ct tc.id ∈ out := by
  unfold reconcile at hok
  exact processMessages_covered messages
    (createToolMessages toolResults (findLastAIMessageWithTools messages))
    (!toolResults.isEmpty) hasPendingToolCalls out hok c tcs h

/-- Witness for C1 at a concrete settled history: the included assistant
message's single request id `X` has a matching ToolResult in the
output. -/
theorem c1_reconcile_completeness_witness :
    ∃ ct, Message.tool ct "X" ∈
      [Message.ai "" [LCToolCall.mk "X" "search" Json.null], Message.tool "result" "X"] :=
  c1_reconcile_completeness
    [Message.ai "" [LCToolCall.mk "X" "search" Json.null], Message.tool "result" "X"]
    [] false
    [Message.ai "" [LCToolCall.mk "X" "search" Json.null], Message.tool "result" "X"]
    (by decide) "" [LCToolCall.mk "X" "search" Json.null] (by decide)
    (LCToolCall.mk "X" "search" Json.null) (by decide)

/-- Counterexample to C1 as stated: when history already holds the
ToolResult before its assistant message, the output keeps that order, so
the assistant message's matching ToolResult is not later in the list —
the assistant message is the last element. -/
theorem c1_counterexample :
    reconcile [Message.tool "r" "X", Message.ai "" [LCToolCall.mk "X" "search" Json.null]]
        [] false
      = Except.ok [Message.tool "r" "X",
          Message.ai "" [LCToolCall.mk "X" "search" Json.null]]
    ∧ (reconcile [Message.tool "r" "X", Message.ai "" [LCToolCall.mk "X" "search" Json.null]]
        [] false).map List.getLast?
      = Except.ok (some (Message.ai "" [LCToolCall.mk "X" "search" Json.null]))
    ∧ (reconcile [Message.tool "r" "X", Message.ai "" [LCToolCall.mk "X" "search" Json.null]]
        [] false).map (List.drop 2)
      = Except.ok [] := by
  refine ⟨by decide, by decide, by decide⟩

/-- Claim C10: every message list the filtering pass produces carries
every ToolResult message of the history, even when the Assistant message
owning the matching request is excluded or absent. Concretely: with
pending tool calls in flight (so the skip diagnostic is the non-throwing
warn), a history whose only assistant message has a dangling request id
`Y` yields an output containing the ToolResult for `X` and no assistant
message at all; and an orphan ToolResult with no assistant message passes
through even with no pending work. -/
theorem c10_standalone_tool_results :
    (∀ (messages newToolMessages : List Message)
      (hasToolResults hasPendingToolCalls : Bool) (out : List Message) (c id : String),
      processMessages messages newToolMessages hasToolResults hasPendingToolCalls
        = Except.ok out →
      Message.tool c id ∈ messages → Message.tool c id ∈ out)
    ∧ processMessages
        [Message.ai "" [LCToolCall.mk "X" "search" Json.null,
          LCToolCall.mk "Y" "search" Json.null], Message.tool "rx" "X"] [] false true
      = Except.ok [Message.tool "rx" "X"]
    ∧ processMessages [Message.tool "orphan" "Z"] [] false false
      = Except.ok [Message.tool "orphan" "Z"] := by
  refine ⟨?_, by decide, by decide⟩
  intro messages newToolMessages hasToolResults hasPendingToolCalls out c id hok hmem
  simp only [processMessages] at hok
  rw [← foldlM_pass2stepE_ok (collectToolMap messages newToolMessages)
    hasToolResults hasPendingToolCalls messages [] out hok]
  exact tool_mem_foldl_pass2step _ messages [] c id (Or.inr hmem)

/-- Witness for C10's universally quantified part at a concrete orphan
ToolResult. -/
theorem c10_standalone_tool_results_witness :
    Message.tool "orphan" "Z" ∈ [Message.tool "orphan" "Z"] :=
  c10_standalone_tool_results.1 [Message.tool "orphan" "Z"] [] false false
    [Message.tool "orphan" "Z"] "orphan" "Z" (by decide) (by decide)


section Lemmas4

/-- One unfolding step of `toolIds`. -/
theorem toolIds_cons (x : Message) (xs : List Message) :
    toolIds (x :: xs) = toolIdHead x ++ toolIds xs := rfl

/-- `toolIds` distributes over append. -/
theorem toolIds_append (l1 l2 : List Message) :
    toolIds (l1 ++ l2) = toolIds l1 ++ toolIds l2 := by
  induction l1 with
  | nil => rfl
  | cons x xs ih =>
    rw [List.cons_append, toolIds_cons, ih, toolIds_cons, List.append_assoc]

/-- A ToolMessage with a truthy id contributes its id to `toolIds`. -/
theorem mem_toolIds (l : List Message) (c id : String)
    (h : Message.tool c id ∈ l) (hid : id ≠ "") : id ∈ toolIds l := by
  induction l with
  | nil => simp at h
  | cons x xs ih =>
    rw [toolIds_cons]
    rcases List.mem_cons.mp h with hx | hxs
    · refine List.mem_append_left _ ?_
      rw [← hx]
      simp [toolIdHead, if_neg hid]
    · exact List.mem_append_right _ (ih hxs)

/-- A fold of `toolMapInsert` leaves keys outside `toolIds` untouched. -/
theorem foldl_toolMapInsert_notin (l : List Message)
    (m0 : String → Option Message) (k : String) (h : k ∉ toolIds l) :
    (l.foldl toolMapInsert m0) k = m0 k := by
  induction l generalizing m0 with
  | nil => rfl
  | cons x xs ih =>
    have hx : k ∉ toolIds xs := fun hk =>
      h (by rw [toolIds_cons]; exact List.mem_append_right _ hk)
    rw [List.foldl_cons, ih (toolMapInsert m0 x) hx]
    cases x with
    | tool c id =>
      simp only [toolMapInsert]
      split
      · rfl
      · rename_i hid
        have hkid : k ≠ id := by
          intro hkid
          apply h
          rw [toolIds_cons, hkid]
          refine List.mem_append_left _ ?_
          simp [toolIdHead, if_neg hid]
        simp [if_neg hkid]
    | system c => rfl
    | human c => rfl
    | ai c tcs => rfl

/-- With globally unique ToolMessage ids, the map lookup at a ToolMessage's
id finds exactly that ToolMessage. -/
theorem foldl_toolMapInsert_found (l : List Message) (c id : String)
    (hnd : (toolIds l).Nodup) (h : Message.tool c id ∈ l) (hid : id ≠ "") :
    ∀ m0, (l.foldl toolMapInsert m0) id = some (Message.tool c id) := by
  induction l with
  | nil => simp at h
  | cons x xs ih =>
    intro m0
    rcases List.mem_cons.mp h with hx | hxs
    · rw [← hx] at hnd ⊢
      have hnotin : id ∉ toolIds xs := by
        rw [toolIds_cons] at hnd
        have hhead : toolIdHead (Message.tool c id) = [id] := by
          simp [toolIdHead, if_neg hid]
        rw [hhead] at hnd
        exact (List.nodup_append.mp hnd).2.2 (by simp)
      rw [List.foldl_cons, foldl_toolMapInsert_notin xs _ id hnotin]
      simp only [toolMapInsert]
      rw [if_neg hid]
      simp
    · have hnd' : (toolIds xs).Nodup := by
        rw [toolIds_cons] at hnd
        exact List.Nodup.of_append_right hnd
      rw [List.foldl_cons]
      exact ih hnd' hxs (toolMapInsert m0 x)

/-- With an empty new-ToolMessage batch and unique ids, the collected map
sends each ToolMessage id of the history to that very ToolMessage. -/
theorem collectToolMap_nil_found (messages : List Message) (c id : String)
    (hnd : (toolIds messages).Nodup) (h : Message.tool c id ∈ messages)
    (hid : id ≠ "") :
    collectToolMap messages [] id = some (Message.tool c id) := by
  unfold collectToolMap
  exact foldl_toolMapInsert_found messages c id hnd h hid (fun _ => none)

/-- Left membership projection of `Forall₂`. -/
theorem forall2_mem_left {α β : Type} {P : α → β → Prop} :
    ∀ {l1 : List α} {l2 : List β}, List.Forall₂ P l1 l2 →
      ∀ x ∈ l1, ∃ y ∈ l2, P x y := by
  intro l1 l2 h
  induction h with
  | nil => intro x hx; simp at hx
  | cons hp _ ih =>
    intro x hx
    rcases List.mem_cons.mp hx with heq | hmem
    · exact ⟨_, by simp, heq ▸ hp⟩
    · obtain ⟨y, hy, hxy⟩ := ih x hmem
      exact ⟨y, List.mem_cons_of_mem _ hy, hxy⟩

/-- Right membership projection of `Forall₂`. -/
theorem forall2_mem_right {α β : Type} {P : α → β → Prop} :
    ∀ {l1 : List α} {l2 : List β}, List.Forall₂ P l1 l2 →
      ∀ y ∈ l2, ∃ x ∈ l1, P x y := by
  intro l1 l2 h
  induction h with
  | nil => intro y hy; simp at hy
  | cons hp _ ih =>
    intro y hy
    rcases List.mem_cons.mp hy with heq | hmem
    · exact ⟨_, by simp, heq ▸ hp⟩
    · obtain ⟨x, hx, hxy⟩ := ih y hmem
      exact ⟨x, List.mem_cons_of_mem _ hx, hxy⟩

/-- Under a ToolMessage-shape hypothesis, duplicate-free ids give a
duplicate-free message list. -/
theorem nodup_of_toolIds_nodup :
    ∀ ts : List Message,
      (∀ t ∈ ts, ∃ c id, t = Message.tool c id ∧ id ≠ "") →
      (toolIds ts).Nodup → ts.Nodup := by
  intro ts
  induction ts with
  | nil => intro _ _; exact List.nodup_nil
  | cons t ts ih =>
    intro hshape hnd
    obtain ⟨c, id, hct, hid⟩ := hshape t (by simp)
    have hids : toolIds (t :: ts) = [id] ++ toolIds ts := by
      rw [toolIds_cons, hct]
      simp [toolIdHead, if_neg hid]
    rw [hids] at hnd
    rcases List.nodup_append.mp hnd with ⟨_, hnd2, hdisj⟩
    refine List.nodup_cons.mpr
      ⟨?_, ih (fun x hx => hshape x (List.mem_cons_of_mem t hx)) hnd2⟩
    intro hmem
    refine hdisj (a := id) (by simp) ?_
    rw [hct] at hmem
    exact mem_toolIds ts c id hmem hid

/-- The inner fold appends exactly the block's ToolMessages, in request
order, when none is present yet. -/
theorem foldl_pass2inner_forall2 (tmap : String → Option Message) :
    ∀ (tcs : List LCToolCall) (ts a : List Message),
      List.Forall₂ (fun tc t => tc.id ≠ "" ∧ tmap tc.id = some t) tcs ts →
      (∀ t ∈ ts, t ∉ a) → ts.Nodup →
      tcs.foldl (pass2inner tmap) a = a ++ ts := by
  intro tcs ts a h
  induction h generalizing a with
  | nil => intro _ _; exact (List.append_nil a).symm
  | @cons tc t tcs ts hp hrest ih =>
    intro hnotin hnd
    obtain ⟨hne, hsome⟩ := hp
    have hstep : pass2inner tmap a tc = a ++ [t] := by
      rw [pass2inner_eq_of_lookup tmap a tc t hne hsome,
        if_neg (hnotin t (by simp))]
    rw [List.foldl_cons, hstep]
    have hnotin2 : ∀ t2 ∈ ts, t2 ∉ a ++ [t] := by
      intro t2 ht2 hmem
      rcases List.mem_append.mp hmem with h1 | h2
      · exact hnotin t2 (List.mem_cons_of_mem t ht2) h1
      · rw [List.mem_singleton.mp h2] at ht2
        exact (List.nodup_cons.mp hnd).1 ht2
    rw [ih (a ++ [t]) hnotin2 (List.nodup_cons.mp hnd).2, List.append_assoc]
    rfl

/-- Folding the filtering step over ToolMessages already admitted leaves
the accumulator unchanged. -/
theorem foldl_pass2step_present (tmap : String → Option Message) :
    ∀ (ts acc : List Message),
      (∀ t ∈ ts, (∃ c id, t = Message.tool c id ∧ id ≠ "") ∧ t ∈ acc) →
      ts.foldl (pass2step tmap) acc = acc := by
  intro ts
  induction ts with
  | nil => intro acc _; rfl
  | cons t ts ih =>
    intro acc hall
    obtain ⟨⟨c, id, hct, hid⟩, hmem⟩ := hall t (by simp)
    have hstep : pass2step tmap acc t = acc := by
      rw [hct]
      simp only [pass2step]
      rw [if_neg hid, if_pos (hct ▸ hmem)]
    rw [List.foldl_cons, hstep]
    exact ih acc (fun x hx => hall x (List.mem_cons_of_mem t hx))

end Lemmas4

section Lemmas5

/-- Over a settled-shaped suffix with globally unique ToolMessage ids, the
filtering fold reproduces the input exactly. -/
theorem foldl_pass2step_settled (tmap : String → Option Message) :
    ∀ (todo : List Message), SettledShape todo →
      ∀ acc : List Message,
      (∀ c id, Message.tool c id ∈ todo → id ≠ "" →
        tmap id = some (Message.tool c id)) →
      (∀ c id, Message.tool c id ∈ todo → id ≠ "" →
        Message.tool c id ∉ acc) →
      (toolIds todo).Nodup →
      todo.foldl (pass2step tmap) acc = acc ++ todo := by
  intro todo hs
  induction hs with
  | nil =>
    intro acc _ _ _
    exact (List.append_nil acc).symm
  | skip m rest hnotai hrest ih =>
    intro acc hmap hacc hnd
    have hstep : pass2step tmap acc m = acc ++ [m] := by
      cases m with
      | system c => rfl
      | human c => rfl
      | ai c tcs =>
        have hemp : tcs.isEmpty = true := by
          simpa [isAIWithTools] using hnotai
        simp only [pass2step]
        rw [if_pos hemp]
      | tool c id =>
        by_cases hid : id = ""
        · simp only [pass2step]
          rw [if_pos hid]
        · have hnot := hacc c id (by simp) hid
          simp only [pass2step]
          rw [if_neg hid, if_neg hnot]
    have hmap2 : ∀ c id, Message.tool c id ∈ rest → id ≠ "" →
        tmap id = some (Message.tool c id) :=
      fun c id hmem hid => hmap c id (List.mem_cons_of_mem m hmem) hid
    have hacc2 : ∀ c id, Message.tool c id ∈ rest → id ≠ "" →
        Message.tool c id ∉ acc ++ [m] := by
      intro c id hmem hid hacc2
      rcases List.mem_append.mp hacc2 with h1 | h2
      · exact hacc c id (List.mem_cons_of_mem m hmem) hid h1
      · have hm : m = Message.tool c id := (List.mem_singleton.mp h2).symm
        rw [toolIds_cons, hm] at hnd
        have hhead : toolIdHead (Message.tool c id) = [id] := by
          simp [toolIdHead, if_neg hid]
        rw [hhead] at hnd
        have hdj := (List.nodup_append.mp hnd).2.2
        exact hdj (a := id) (by simp) (mem_toolIds rest c id hmem hid)
    have hnd2 : (toolIds rest).Nodup := by
      rw [toolIds_cons] at hnd
      exact List.Nodup.of_append_right hnd
    rw [List.foldl_cons, hstep, ih (acc ++ [m]) hmap2 hacc2 hnd2,
      List.append_assoc]
    rfl
  | block c tcs ts rest hne hf2 hrest ih =>
    intro acc hmap hacc hnd
    have hmem_todo : ∀ t ∈ ts, t ∈ Message.ai c tcs :: (ts ++ rest) :=
      fun t ht => List.mem_cons_of_mem _ (List.mem_append_left rest ht)
    have hshape : ∀ t ∈ ts, ∃ ct id, t = Message.tool ct id ∧ id ≠ "" := by
      intro t ht
      obtain ⟨tc, _, hid, ct, hct⟩ := forall2_mem_right hf2 t ht
      exact ⟨ct, tc.id, hct, hid⟩
    have upgrade : ∀ (tcs2 : List LCToolCall) (ts2 : List Message),
        List.Forall₂ (fun tc t => tc.id ≠ "" ∧ ∃ ct, t = Message.tool ct tc.id) tcs2 ts2 →
        (∀ t ∈ ts2, ∀ ct tcid, t = Message.tool ct tcid → tcid ≠ "" →
          tmap tcid = some t) →
        List.Forall₂ (fun tc t => tc.id ≠ "" ∧ tmap tc.id = some t) tcs2 ts2 := by
      intro tcs2 ts2 h2
      induction h2 with
      | nil => intro _; exact List.Forall₂.nil
      | @cons tc t tcs3 ts3 hp hrest2 ih2 =>
        intro hlook
        obtain ⟨hid, ct, hct⟩ := hp
        refine List.Forall₂.cons ⟨hid, ?_⟩
          (ih2 (fun x hx => hlook x (List.mem_cons_of_mem t hx)))
        exact hlook t (by simp) ct tc.id hct hid
    have hf2n : List.Forall₂ (fun tc t => tc.id ≠ "" ∧ tmap tc.id = some t) tcs ts := by
      apply upgrade tcs ts hf2
      intro t ht ct tcid hct hid
      rw [hct]
      exact hmap ct tcid (by rw [← hct]; exact hmem_todo t ht) hid
    have hall : ∀ tc ∈ tcs, tc.id ≠ "" ∧ (tmap tc.id).isSome := by
      intro tc htc
      obtain ⟨t, _, hid, hsome⟩ := forall2_mem_left hf2n tc htc
      exact ⟨hid, by rw [hsome]; rfl⟩
    have hndts_rest : (toolIds ts ++ toolIds rest).Nodup := by
      rw [toolIds_cons] at hnd
      have hh : toolIdHead (Message.ai c tcs) = [] := rfl
      rw [hh, List.nil_append, toolIds_append] at hnd
      exact hnd
    have hnts : ts.Nodup :=
      nodup_of_toolIds_nodup ts hshape (List.nodup_append.mp hndts_rest).1
    have hdisj := (List.nodup_append.mp hndts_rest).2.2
    have hemp : tcs.isEmpty = false := by
      cases tcs with
      | nil => exact absurd rfl hne
      | cons a b => rfl
    have hstep1 : pass2step tmap acc (Message.ai c tcs)
        = tcs.foldl (pass2inner tmap) (acc ++ [Message.ai c tcs]) := by
      simp only [pass2step]
      rw [if_neg (by simp [hemp]), if_pos hall]
    have hnotin : ∀ t ∈ ts, t ∉ acc ++ [Message.ai c tcs] := by
      intro t ht hmem
      obtain ⟨ct, tcid, hct, hid⟩ := hshape t ht
      rcases List.mem_append.mp hmem with h1 | h2
      · exact hacc ct tcid (by rw [← hct]; exact hmem_todo t ht) hid (hct ▸ h1)
      · rw [List.mem_singleton.mp h2] at hct
        simp at hct
    have hstep2 : tcs.foldl (pass2inner tmap) (acc ++ [Message.ai c tcs])
        = (acc ++ [Message.ai c tcs]) ++ ts :=
      foldl_pass2inner_forall2 tmap tcs ts _ hf2n hnotin hnts
    have hmap2 : ∀ c2 id2, Message.tool c2 id2 ∈ rest → id2 ≠ "" →
        tmap id2 = some (Message.tool c2 id2) :=
      fun c2 id2 hmem hid2 =>
        hmap c2 id2 (List.mem_cons_of_mem _ (List.mem_append_right ts hmem)) hid2
    have hacc2 : ∀ c2 id2, Message.tool c2 id2 ∈ rest → id2 ≠ "" →
        Message.tool c2 id2 ∉ (acc ++ [Message.ai c tcs]) ++ ts := by
      intro c2 id2 hmem hid2 hinacc
      rcases List.mem_append.mp hinacc with h1 | h2
      · rcases List.mem_append.mp h1 with h3 | h4
        · exact hacc c2 id2
            (List.mem_cons_of_mem _ (List.mem_append_right ts hmem)) hid2 h3
        · have := List.mem_singleton.mp h4
          simp at this
      · exact hdisj (a := id2) (mem_toolIds ts c2 id2 h2 hid2)
          (mem_toolIds rest c2 id2 hmem hid2)
    have hnd2 : (toolIds rest).Nodup := (List.nodup_append.mp hndts_rest).2.1
    rw [List.foldl_cons, hstep1, hstep2, List.foldl_append,
      foldl_pass2step_present tmap ts _
        (fun t ht => ⟨hshape t ht, List.mem_append_right _ ht⟩),
      ih ((acc ++ [Message.ai c tcs]) ++ ts) hmap2 hacc2 hnd2]
    simp [List.append_assoc]

/-- In a settled-shaped history whose map sends each ToolMessage id to
that ToolMessage, every assistant message's requests are fully covered, so
the pass's error diagnostic is unreachable. -/
theorem settled_all_covered (tmap : String → Option Message) :
    ∀ (todo : List Message), SettledShape todo →
      (∀ c id, Message.tool c id ∈ todo → id ≠ "" →
        tmap id = some (Message.tool c id)) →
      ∀ c tcs, Message.ai c tcs ∈ todo →
        ∀ tc ∈ tcs, tc.id ≠ "" ∧ (tmap tc.id).isSome := by
  intro todo hs
  induction hs with
  | nil =>
    intro _ c tcs hm
    simp at hm
  | skip m rest hnotai hrest ih =>
    intro hmap c tcs hm
    rcases List.mem_cons.mp hm with heq | hmem
    · rw [← heq] at hnotai
      have hemp : tcs = [] := by
        simpa [isAIWithTools, List.isEmpty_iff] using hnotai
      intro tc htc
      rw [hemp] at htc
      simp at htc
    · exact ih (fun c2 id2 hmem2 hid2 =>
        hmap c2 id2 (List.mem_cons_of_mem m hmem2) hid2) c tcs hmem
  | block c0 tcs0 ts rest hne hf2 hrest ih =>
    intro hmap c tcs hm
    have hmem_todo : ∀ t ∈ ts, t ∈ Message.ai c0 tcs0 :: (ts ++ rest) :=
      fun t ht => List.mem_cons_of_mem _ (List.mem_append_left rest ht)
    rcases List.mem_cons.mp hm with heq | hmem
    · have htcs : tcs = tcs0 := by injection heq
      rw [htcs]
      intro tc htc
      obtain ⟨t, ht, hid, ct, hct⟩ := forall2_mem_left hf2 tc htc
      refine ⟨hid, ?_⟩
      have hlook := hmap ct tc.id (by rw [← hct]; exact hmem_todo t ht) hid
      rw [hlook]
      rfl
    · rcases List.mem_append.mp hmem with hts | hrest2
      · obtain ⟨tc2, _, _, ct, hct⟩ := forall2_mem_right hf2 _ hts
        simp at hct
      · exact ih (fun c2 id2 hmem2 hid2 =>
          hmap c2 id2 (List.mem_cons_of_mem _ (List.mem_append_right ts hmem2)) hid2)
          c tcs hrest2

end Lemmas5

/-- An empty result batch creates no ToolMessages. -/
theorem createToolMessages_nil (lastAIMessageWithTools : Option Message) :
    createToolMessages [] lastAIMessageWithTools = [] := by
  unfold createToolMessages
  split
  · rfl
  · rfl

/-- Claim C2 (amended): reconciling a fully-settled history with an empty
result batch returns it unchanged, provided each Assistant message's
matching ToolResult messages directly follow it in request order and no
two ToolResult messages share a toolCallId. -/
theorem c2_settled_identity (messages : List Message)
    (hs : SettledShape messages) (hnd : (toolIds messages).Nodup)
    (hasPendingToolCalls : Bool) :
    reconcile messages [] hasPendingToolCalls = Except.ok messages := by
  unfold reconcile
  rw [createToolMessages_nil]
  simp only [processMessages]
  have hmap : ∀ c id, Message.tool c id ∈ messages → id ≠ "" →
      collectToolMap messages [] id = some (Message.tool c id) :=
    fun c id hmem hid => collectToolMap_nil_found messages c id hnd hmem hid
  rw [foldlM_pass2stepE_no_throw (collectToolMap messages []) _ _ messages
    (fun c tcs hm =>
      Or.inl (settled_all_covered (collectToolMap messages []) messages hs hmap c tcs hm)) []]
  rw [foldl_pass2step_settled (collectToolMap messages []) messages hs []
    hmap (fun c id _ _ hmem => by simp at hmem) hnd]
  rw [List.nil_append]

/-- Witness for C2 at a concrete settled history consisting of one
question, one tool-call round and its result. -/
theorem c2_settled_identity_witness :
    reconcile [Message.human "hi",
      Message.ai "" [LCToolCall.mk "X" "search" Json.null],
      Message.tool "result" "X", Message.ai "done" []] [] false
    = Except.ok [Message.human "hi",
      Message.ai "" [LCToolCall.mk "X" "search" Json.null],
      Message.tool "result" "X", Message.ai "done" []] := by
  refine c2_settled_identity _ ?_ (by decide) false
  refine SettledShape.skip _ _ (by decide) ?_
  have hblock : SettledShape
      (Message.ai "" [LCToolCall.mk "X" "search" Json.null]
        :: ([Message.tool "result" "X"] ++ [Message.ai "done" []])) := by
    refine SettledShape.block "" [LCToolCall.mk "X" "search" Json.null]
      [Message.tool "result" "X"] [Message.ai "done" []] (by decide) ?_ ?_
    · exact List.Forall₂.cons ⟨by decide, "result", rfl⟩ List.Forall₂.nil
    · exact SettledShape.skip _ _ (by decide) SettledShape.nil
  exact hblock

/-- Counterexample to C2 as stated: a fully-settled history (in the
claim's sense: every request id has a matching ToolResult somewhere)
whose ToolResult is separated from its assistant message is reordered by
reconciliation, not returned unchanged. -/
theorem c2_counterexample :
    claimFullySettled [Message.ai "" [LCToolCall.mk "X" "search" Json.null],
      Message.human "hi", Message.tool "r" "X"] = true ∧
    reconcile [Message.ai "" [LCToolCall.mk "X" "search" Json.null],
      Message.human "hi", Message.tool "r" "X"] [] false
    = Except.ok [Message.ai "" [LCToolCall.mk "X" "search" Json.null],
      Message.tool "r" "X", Message.human "hi"] := by
  refine ⟨by decide, by decide⟩

section Lemmas6

/-- The indexed forEach of `createToolMessages` is the positional zip
against the suffix of the request list from the current index, when every
request carries a truthy id. -/
theorem ctmGo_zip (tcs : List LCToolCall) (hids : ∀ tc ∈ tcs, tc.id ≠ "") :
    ∀ (toolResults : List ToolResultRecord) (i : Nat),
      ctmGo tcs toolResults i
        = (toolResults.zip (tcs.drop i)).map
            (fun p => Message.tool (serializeResult p.1.result) p.2.id) := by
  intro toolResults
  induction toolResults with
  | nil => intro i; rfl
  | cons tr rest ih =>
    intro i
    rcases hq : tcs[i]? with _ | tc
    · have hlen : tcs.length ≤ i := List.getElem?_eq_none_iff.mp hq
      have hdrop : tcs.drop i = [] := List.drop_eq_nil_of_le hlen
      have hdrop2 : tcs.drop (i + 1) = [] :=
        List.drop_eq_nil_of_le (Nat.le_trans hlen (Nat.le_succ i))
      simp only [ctmGo]
      rw [hq, ih (i + 1), hdrop, hdrop2]
      simp
    · have htc : tc ∈ tcs := List.getElem?_mem hq
      have hid := hids tc htc
      obtain ⟨hlt, hget⟩ := List.getElem?_eq_some.mp hq
      have hdropc : tcs.drop i = tc :: tcs.drop (i + 1) := by
        rw [List.drop_eq_getElem_cons hlt, hget]
      simp only [ctmGo]
      rw [hq]
      show (if tc.id = "" then ([] : List Message)
          else [Message.tool (serializeResult tr.result) tc.id])
        ++ ctmGo tcs rest (i + 1) = _
      rw [if_neg hid, ih (i + 1), hdropc, List.zip_cons_cons, List.map_cons]
      rfl

/-- `find?` skips a leading run on which the test fails. -/
theorem find?_append_all_neg (p : Message → Bool) (l1 l2 : List Message)
    (h : ∀ x ∈ l1, p x = false) : (l1 ++ l2).find? p = l2.find? p := by
  induction l1 with
  | nil => rfl
  | cons x xs ih =>
    rw [List.cons_append, List.find?_cons_of_neg _ (by simp [h x (by simp)]),
      ih (fun y hy => h y (List.mem_cons_of_mem x hy))]

/-- The backwards scan finds the most recent assistant message carrying
tool calls. -/
theorem findLast_spec (H1 H2 : List Message) (m : Message)
    (hm : isAIWithTools m = true) (h2 : ∀ x ∈ H2, isAIWithTools x = false) :
    findLastAIMessageWithTools (H1 ++ m :: H2) = some m := by
  unfold findLastAIMessageWithTools
  rw [List.reverse_append, List.reverse_cons, List.append_assoc,
    find?_append_all_neg isAIWithTools H2.reverse _
      (fun x hx => h2 x (List.mem_reverse.mp hx))]
  exact List.find?_cons_of_pos _ hm

end Lemmas6

/-- Claim C5: a non-empty result batch is zipped positionally against the
request list of the most recent Assistant message carrying tool calls;
the record at index `i` becomes a ToolMessage whose id is request `i`'s
id and whose content is the record's result verbatim for strings and its
pretty-printed rendering otherwise; records beyond the request list are
dropped (the zip truncates). Requests are assumed to carry ids, as the
claim's phrase "the id of request i" presupposes. -/
theorem c5_positional_zip (H1 H2 : List Message) (c : String)
    (tcs : List LCToolCall) (toolResults : List ToolResultRecord)
    (h2 : ∀ x ∈ H2, isAIWithTools x = false) (hne : tcs ≠ [])
    (hids : ∀ tc ∈ tcs, tc.id ≠ "") :
    findLastAIMessageWithTools (H1 ++ Message.ai c tcs :: H2)
      = some (Message.ai c tcs) ∧
    createToolMessages toolResults
        (findLastAIMessageWithTools (H1 ++ Message.ai c tcs :: H2))
      = (toolResults.zip tcs).map
          (fun p => Message.tool (serializeResult p.1.result) p.2.id) := by
  have hm : isAIWithTools (Message.ai c tcs) = true := by
    simp [isAIWithTools, List.isEmpty_iff, hne]
  have hfind := findLast_spec H1 H2 (Message.ai c tcs) hm h2
  refine ⟨hfind, ?_⟩
  rw [hfind]
  show ctmGo tcs toolResults 0 = _
  rw [ctmGo_zip tcs hids toolResults 0, List.drop_zero]

/-- Witness for C5: one request, two records — the first is zipped to the
request's id with verbatim string content, the second (overflow) is
dropped. -/
theorem c5_positional_zip_witness :
    findLastAIMessageWithTools
        ([Message.human "q"] ++ Message.ai "" [LCToolCall.mk "call_9" "search" Json.null] :: [])
      = some (Message.ai "" [LCToolCall.mk "call_9" "search" Json.null]) ∧
    createToolMessages
        [ToolResultRecord.mk "search" (Json.str "hit"),
          ToolResultRecord.mk "extra" Json.null]
        (findLastAIMessageWithTools
          ([Message.human "q"] ++ Message.ai "" [LCToolCall.mk "call_9" "search" Json.null] :: []))
      = ([ToolResultRecord.mk "search" (Json.str "hit"),
          ToolResultRecord.mk "extra" Json.null].zip
            [LCToolCall.mk "call_9" "search" Json.null]).map
          (fun p => Message.tool (serializeResult p.1.result) p.2.id) :=
  c5_positional_zip [Message.human "q"] [] ""
    [LCToolCall.mk "call_9" "search" Json.null]
    [ToolResultRecord.mk "search" (Json.str "hit"),
      ToolResultRecord.mk "extra" Json.null]
    (by intro x hx; simp at hx) (by decide) (by decide)

section Lemmas7

/-- Membership in the modelled JavaScript `Set` insertion. -/
theorem mem_insertUniq (l : List String) (x y : String) :
    y ∈ insertUniq l x ↔ y ∈ l ∨ y = x := by
  unfold insertUniq
  split
  · rename_i hin
    constructor
    · exact Or.inl
    · intro h
      rcases h with h | h
      · exact h
      · exact h ▸ hin
  · simp

/-- Membership after folding the request ids of one assistant message. -/
theorem mem_foldl_tcIds (tcs : List LCToolCall) :
    ∀ (s : List String) (x : String),
      x ∈ tcs.foldl (fun s2 tc => if tc.id = "" then s2 else insertUniq s2 tc.id) s
      ↔ x ∈ s ∨ ∃ tc ∈ tcs, tc.id = x ∧ x ≠ "" := by
  induction tcs with
  | nil => intro s x; simp
  | cons tc tcs ih =>
    intro s x
    rw [List.foldl_cons]
    by_cases hid : tc.id = ""
    · rw [if_pos hid, ih]
      constructor
      · intro h
        rcases h with h | ⟨tc2, h2, h3⟩
        · exact Or.inl h
        · exact Or.inr ⟨tc2, List.mem_cons_of_mem tc h2, h3⟩
      · intro h
        rcases h with h | ⟨tc2, h2, h3, h4⟩
        · exact Or.inl h
        · rcases List.mem_cons.mp h2 with heq | hmem
          · rw [heq] at h3
            rw [hid] at h3
            exact absurd h3.symm h4
          · exact Or.inr ⟨tc2, hmem, h3, h4⟩
    · rw [if_neg hid, ih]
      constructor
      · intro h
        rcases h with h | ⟨tc2, h2, h3⟩
        · rcases (mem_insertUniq s tc.id x).mp h with h4 | h4
          · exact Or.inl h4
          · exact Or.inr ⟨tc, by simp, h4.symm, by rw [← h4] at hid; exact fun hc => hid hc⟩
        · exact Or.inr ⟨tc2, List.mem_cons_of_mem tc h2, h3⟩
      · intro h
        rcases h with h | ⟨tc2, h2, h3, h4⟩
        · exact Or.inl ((mem_insertUniq s tc.id x).mpr (Or.inl h))
        · rcases List.mem_cons.mp h2 with heq | hmem
          · refine Or.inl ((mem_insertUniq s tc.id x).mpr (Or.inr ?_))
            rw [heq] at h3
            exact h3.symm
          · exact Or.inr ⟨tc2, hmem, h3, h4⟩

/-- Characterization of the request-id set: exactly the truthy request ids
of assistant messages of the list. -/
theorem mem_collectToolCallIds (messages : List Message) (x : String) :
    x ∈ collectToolCallIds messages
    ↔ ∃ c tcs, Message.ai c tcs ∈ messages ∧ ∃ tc ∈ tcs, tc.id = x ∧ x ≠ "" := by
  have hgen : ∀ (l : List Message) (s : List String),
      x ∈ l.foldl (fun s2 msg =>
        match msg with
        | Message.ai _ tool_calls =>
          tool_calls.foldl (fun s3 tc => if tc.id = "" then s3 else insertUniq s3 tc.id) s2
        | _ => s2) s
      ↔ x ∈ s ∨ ∃ c tcs, Message.ai c tcs ∈ l ∧ ∃ tc ∈ tcs, tc.id = x ∧ x ≠ "" := by
    intro l
    induction l with
    | nil => intro s; simp
    | cons m l ih =>
      intro s
      rw [List.foldl_cons]
      cases m with
      | ai c tcs =>
        rw [ih, mem_foldl_tcIds]
        constructor
        · intro h
          rcases h with (h | h) | ⟨c2, tcs2, hm, htc⟩
          · exact Or.inl h
          · exact Or.inr ⟨c, tcs, by simp, h⟩
          · exact Or.inr ⟨c2, tcs2, List.mem_cons_of_mem _ hm, htc⟩
        · intro h
          rcases h with h | ⟨c2, tcs2, hm, htc⟩
          · exact Or.inl (Or.inl h)
          · rcases List.mem_cons.mp hm with heq | hmem
            · refine Or.inl (Or.inr ?_)
              obtain ⟨h1, h2⟩ := Message.ai.inj heq
              rw [← h2]
              exact htc
            · exact Or.inr ⟨c2, tcs2, hmem, htc⟩
      | system c =>
        rw [ih]
        simp only [List.mem_cons]
        constructor
        · intro h
          rcases h with h | ⟨c2, tcs2, hm, htc⟩
          · exact Or.inl h
          · exact Or.inr ⟨c2, tcs2, Or.inr hm, htc⟩
        · intro h
          rcases h with h | ⟨c2, tcs2, hm, htc⟩
          · exact Or.inl h
          · rcases hm with heq | hmem
            · simp at heq
            · exact Or.inr ⟨c2, tcs2, hmem, htc⟩
      | human c =>
        rw [ih]
        simp only [List.mem_cons]
        constructor
        · intro h
          rcases h with h | ⟨c2, tcs2, hm, htc⟩
          · exact Or.inl h
          · exact Or.inr ⟨c2, tcs2, Or.inr hm, htc⟩
        · intro h
          rcases h with h | ⟨c2, tcs2, hm, htc⟩
          · exact Or.inl h
          · rcases hm with heq | hmem
            · simp at heq
            · exact Or.inr ⟨c2, tcs2, hmem, htc⟩
      | tool c id =>
        rw [ih]
        simp only [List.mem_cons]
        constructor
        · intro h
          rcases h with h | ⟨c2, tcs2, hm, htc⟩
          · exact Or.inl h
          · exact Or.inr ⟨c2, tcs2, Or.inr hm, htc⟩
        · intro h
          rcases h with h | ⟨c2, tcs2, hm, htc⟩
          · exact Or.inl h
          · rcases hm with heq | hmem
            · simp at heq
            · exact Or.inr ⟨c2, tcs2, hmem, htc⟩
  have := hgen messages []
  simpa [collectToolCallIds] using this

/-- Characterization of the result-id set: exactly the truthy
`tool_call_id`s of ToolMessages of the list. -/
theorem mem_collectToolMessageIds (messages : List Message) (x : String) :
    x ∈ collectToolMessageIds messages
    ↔ (∃ c, Message.tool c x ∈ messages) ∧ x ≠ "" := by
  have hgen : ∀ (l : List Message) (s : List String),
      x ∈ l.foldl (fun s2 msg =>
        match msg with
        | Message.tool _ id => if id = "" then s2 else insertUniq s2 id
        | _ => s2) s
      ↔ x ∈ s ∨ ((∃ c, Message.tool c x ∈ l) ∧ x ≠ "") := by
    intro l
    induction l with
    | nil => intro s; simp
    | cons m l ih =>
      intro s
      rw [List.foldl_cons]
      cases m with
      | tool c id =>
        show x ∈ l.foldl _ (if id = "" then s else insertUniq s id) ↔ _
        by_cases hid : id = ""
        · rw [if_pos hid, ih]
          constructor
          · intro h
            rcases h with h | ⟨⟨c2, hm⟩, hx⟩
            · exact Or.inl h
            · exact Or.inr ⟨⟨c2, List.mem_cons_of_mem _ hm⟩, hx⟩
          · intro h
            rcases h with h | ⟨⟨c2, hm⟩, hx⟩
            · exact Or.inl h
            · rcases List.mem_cons.mp hm with heq | hmem
              · obtain ⟨_, h2⟩ := Message.tool.inj heq
                exact absurd (h2.trans hid) hx
              · exact Or.inr ⟨⟨c2, hmem⟩, hx⟩
        · rw [if_neg hid, ih]
          constructor
          · intro h
            rcases h with h | ⟨⟨c2, hm⟩, hx⟩
            · rcases (mem_insertUniq s id x).mp h with h1 | h1
              · exact Or.inl h1
              · exact Or.inr ⟨⟨c, by rw [h1]; simp⟩, by rw [h1]; exact hid⟩
            · exact Or.inr ⟨⟨c2, List.mem_cons_of_mem _ hm⟩, hx⟩
          · intro h
            rcases h with h | ⟨⟨c2, hm⟩, hx⟩
            · exact Or.inl ((mem_insertUniq s id x).mpr (Or.inl h))
            · rcases List.mem_cons.mp hm with heq | hmem
              · obtain ⟨_, h2⟩ := Message.tool.inj heq
                exact Or.inl ((mem_insertUniq s id x).mpr (Or.inr h2))
              · exact Or.inr ⟨⟨c2, hmem⟩, hx⟩
      | system c =>
        rw [ih]
        constructor
        · intro h
          rcases h with h | ⟨⟨c2, hm⟩, hx⟩
          · exact Or.inl h
          · exact Or.inr ⟨⟨c2, List.mem_cons_of_mem _ hm⟩, hx⟩
        · intro h
          rcases h with h | ⟨⟨c2, hm⟩, hx⟩
          · exact Or.inl h
          · rcases List.mem_cons.mp hm with heq | hmem
            · simp at heq
            · exact Or.inr ⟨⟨c2, hmem⟩, hx⟩
      | human c =>
        rw [ih]
        constructor
        · intro h
          rcases h with h | ⟨⟨c2, hm⟩, hx⟩
          · exact Or.inl h
          · exact Or.inr ⟨⟨c2, List.mem_cons_of_mem _ hm⟩, hx⟩
        · intro h
          rcases h with h | ⟨⟨c2, hm⟩, hx⟩
          · exact Or.inl h
          · rcases List.mem_cons.mp hm with heq | hmem
            · simp at heq
            · exact Or.inr ⟨⟨c2, hmem⟩, hx⟩
      | ai c tcs =>
        rw [ih]
        constructor
        · intro h
          rcases h with h | ⟨⟨c2, hm⟩, hx⟩
          · exact Or.inl h
          · exact Or.inr ⟨⟨c2, List.mem_cons_of_mem _ hm⟩, hx⟩
        · intro h
          rcases h with h | ⟨⟨c2, hm⟩, hx⟩
          · exact Or.inl h
          · rcases List.mem_cons.mp hm with heq | hmem
            · simp at heq
            · exact Or.inr ⟨⟨c2, hmem⟩, hx⟩
  have := hgen messages []
  simpa [collectToolMessageIds] using this

end Lemmas7

/-- `validateToolCalls` succeeds exactly when every truthy request id of
every assistant message has a matching ToolMessage. -/
theorem validateToolCalls_isValid_iff (messages : List Message) :
    (validateToolCalls messages).isValid = true
    ↔ ∀ c tcs, Message.ai c tcs ∈ messages → ∀ tc ∈ tcs, tc.id ≠ "" →
        ∃ ct, Message.tool ct tc.id ∈ messages := by
  have hshow : (validateToolCalls messages).isValid
      = (((collectToolCallIds messages).filter
          fun id => !(collectToolMessageIds messages).contains id).length == 0) := rfl
  rw [hshow, beq_iff_eq, List.length_eq_zero, List.filter_eq_nil_iff]
  constructor
  · intro h c tcs hm tc htc hid
    have hx : tc.id ∈ collectToolCallIds messages :=
      (mem_collectToolCallIds messages tc.id).mpr ⟨c, tcs, hm, tc, htc, rfl, hid⟩
    have hneg := h tc.id hx
    have hmem : tc.id ∈ collectToolMessageIds messages := by
      by_contra hno
      exact hneg (by simp [hno])
    obtain ⟨⟨ct, hct⟩, _⟩ := (mem_collectToolMessageIds messages tc.id).mp hmem
    exact ⟨ct, hct⟩
  · intro h x hx
    obtain ⟨c, tcs, hm, tc, htc, hideq, hxne⟩ :=
      (mem_collectToolCallIds messages x).mp hx
    obtain ⟨ct, hct⟩ := h c tcs hm tc htc (by rw [hideq]; exact hxne)
    have hmem : x ∈ collectToolMessageIds messages :=
      (mem_collectToolMessageIds messages x).mpr ⟨⟨ct, by rw [← hideq]; exact hct⟩, hxne⟩
    simp [hmem]

/-- Claim C6: the pre-send validation collects request ids and result ids
over the assembled list; a dangling request id makes the validation fail,
and in that case the node aborts the turn (the diagnostic logger throws):
nothing is patched and no substitute results are synthesized — a turn
completes only when the assembled list was produced, sent as-is and
valid. -/
theorem c6_validation_failure :
    (∀ messages : List Message,
      (validateToolCalls messages).isValid = true ↔
        ∀ c tcs, Message.ai c tcs ∈ messages → ∀ tc ∈ tcs, tc.id ≠ "" →
          ∃ ct, Message.tool ct tc.id ∈ messages)
    ∧ (∀ (messages : List Message) (toolResults : List ToolResultRecord)
        (toolCalls : List PendingToolCall),
        (validateToolCalls messages).isValid = false →
        ∃ e, getLLMWithToolsCheck messages toolResults toolCalls = Except.error e)
    ∧ (∀ (oracle : List Message → ModelResponse) (registry : String → Option Tool)
        (systemPrompt : Option String) (state : AgentStateR)
        (messages : List Message),
        getMessageList systemPrompt state = Except.ok messages →
        (validateToolCalls messages).isValid = false →
        nodeExecute oracle registry systemPrompt state = none)
    ∧ (∀ (oracle : List Message → ModelResponse) (registry : String → Option Tool)
        (systemPrompt : Option String) (state : AgentStateR) (t : AgentStateR),
        nodeExecute oracle registry systemPrompt state = some t →
        ∃ messages, getMessageList systemPrompt state = Except.ok messages
          ∧ (validateToolCalls messages).isValid = true) := by
  have h2 : ∀ (messages : List Message) (toolResults : List ToolResultRecord)
      (toolCalls : List PendingToolCall),
      (validateToolCalls messages).isValid = false →
      ∃ e, getLLMWithToolsCheck messages toolResults toolCalls = Except.error e := by
    intro messages toolResults toolCalls h
    unfold getLLMWithToolsCheck
    rw [if_neg (by simp [h])]
    by_cases he : toolResults.isEmpty
    · rw [if_pos he]
      exact ⟨_, rfl⟩
    · rw [if_neg he]
      exact ⟨_, rfl⟩
  have h3 : ∀ (oracle : List Message → ModelResponse) (registry : String → Option Tool)
      (systemPrompt : Option String) (state : AgentStateR)
      (messages : List Message),
      getMessageList systemPrompt state = Except.ok messages →
      (validateToolCalls messages).isValid = false →
      nodeExecute oracle registry systemPrompt state = none := by
    intro oracle registry systemPrompt state messages hmsgs h
    obtain ⟨e, he⟩ := h2 messages state.toolResults state.toolCalls h
    simp only [nodeExecute, hmsgs, he]
  refine ⟨validateToolCalls_isValid_iff, h2, h3, ?_⟩
  intro oracle registry systemPrompt state t hsome
  rcases hmsgs : getMessageList systemPrompt state with e | messages
  · have hnone : nodeExecute oracle registry systemPrompt state = none := by
      simp only [nodeExecute, hmsgs]
    rw [hnone] at hsome
    cases hsome
  · refine ⟨messages, rfl, ?_⟩
    rcases hv : (validateToolCalls messages).isValid with _ | _
    · rw [h3 oracle registry systemPrompt state messages hmsgs hv] at hsome
      cases hsome
    · rfl

/-- Witness for C6 at a concrete dangling request: validation fails, the
check throws, and the node aborts. -/
theorem c6_validation_failure_witness :
    ∃ e, getLLMWithToolsCheck
        [Message.ai "" [LCToolCall.mk "X" "search" Json.null]] [] []
      = Except.error e :=
  c6_validation_failure.2.1
    [Message.ai "" [LCToolCall.mk "X" "search" Json.null]] [] [] (by decide)

section Lemmas8

/-- The conditional edge reads exactly the emptiness of `toolResults`. -/
theorem workflowRoute_continue_iff (state : AgentStateR) :
    workflowRoute state = "continue" ↔ state.toolResults ≠ [] := by
  unfold workflowRoute
  by_cases h : state.toolResults.length > 0
  · rw [if_pos h]
    simp only [iff_true_intro rfl, true_iff]
    intro hnil
    rw [hnil] at h
    simp at h
  · rw [if_neg h]
    constructor
    · intro hc
      exact absurd hc (by decide)
    · intro hne
      exact absurd (List.length_pos.mpr hne) h

/-- Every state the loop yields has an empty `toolResults`. -/
theorem runWorkflow_final_empty (step : AgentStateR → Option AgentStateR) :
    ∀ (fuel : Nat) (s t : AgentStateR),
      runWorkflow step fuel s = some t → t.toolResults = [] := by
  intro fuel
  induction fuel with
  | zero => intro s t h; cases h
  | succ n ih =>
    intro s t h
    simp only [runWorkflow] at h
    rcases hs : step s with _ | s2
    · rw [hs] at h; cases h
    · rw [hs] at h
      have h2 : (if workflowRoute s2 = "continue" then runWorkflow step n s2
          else some s2) = some t := h
      by_cases hc : workflowRoute s2 = "continue"
      · rw [if_pos hc] at h2
        exact ih s2 t h2
      · rw [if_neg hc] at h2
        have ht : s2 = t := by injection h2
        rw [← ht]
        by_contra hne
        exact hc ((workflowRoute_continue_iff s2).mpr hne)

end Lemmas8

/-- Claim C7: after each agent step the controller loops back exactly when
the resulting state's `toolResults` is non-empty, transitions to DONE and
yields that state otherwise, and every state the loop yields has empty
`toolResults`. -/
theorem c7_loop_transition (step : AgentStateR → Option AgentStateR)
    (fuel : Nat) (s s2 : AgentStateR) (hstep : step s = some s2) :
    (s2.toolResults ≠ [] →
      runWorkflow step (fuel + 1) s = runWorkflow step fuel s2)
    ∧ (s2.toolResults = [] → runWorkflow step (fuel + 1) s = some s2)
    ∧ (∀ t, runWorkflow step fuel s = some t → t.toolResults = []) := by
  refine ⟨?_, ?_, fun t ht => runWorkflow_final_empty step fuel s t ht⟩
  · intro hne
    simp only [runWorkflow]
    rw [hstep]
    show (if workflowRoute s2 = "continue" then runWorkflow step fuel s2
      else some s2) = runWorkflow step fuel s2
    rw [if_pos ((workflowRoute_continue_iff s2).mpr hne)]
  · intro hnil
    simp only [runWorkflow]
    rw [hstep]
    show (if workflowRoute s2 = "continue" then runWorkflow step fuel s2
      else some s2) = some s2
    rw [if_neg (fun hc => ((workflowRoute_continue_iff s2).mp hc) hnil)]

/-- Witness for C7: a step that produces an empty-scratch state makes the
one-step loop yield exactly that state. -/
theorem c7_loop_transition_witness :
    runWorkflow (fun s => some { messages := s.messages, toolCalls := [], toolResults := [] })
        1 (AgentStateR.mk [] [] [])
      = some (AgentStateR.mk [] [] []) :=
  ((c7_loop_transition
    (fun s => some { messages := s.messages, toolCalls := [], toolResults := [] })
    0 (AgentStateR.mk [] [] []) (AgentStateR.mk [] [] []) rfl).2.1) rfl

/-- One agent step keeps the `toolCalls` scratch empty: the tool branch
clears it and the final branch leaves it untouched. -/
theorem nodeExecute_toolCalls_empty (oracle : List Message → ModelResponse)
    (registry : String → Option Tool) (systemPrompt : Option String)
    (s s2 : AgentStateR) (h : nodeExecute oracle registry systemPrompt s = some s2)
    (hs : s.toolCalls = []) : s2.toolCalls = [] := by
  simp only [nodeExecute] at h
  split at h
  · cases h
  · split at h
    · cases h
    · split at h
      · split at h
        · cases h
        · have := (Option.some.inj h).symm
          rw [this]
      · have := (Option.some.inj h).symm
        rw [this]
        exact hs

/-- With an invariant-preserving step, a yielded final state also has an
empty `toolCalls` scratch. -/
theorem runWorkflow_toolCalls_empty (step : AgentStateR → Option AgentStateR)
    (hpres : ∀ s s2, step s = some s2 → s.toolCalls = [] → s2.toolCalls = []) :
    ∀ (fuel : Nat) (s t : AgentStateR), s.toolCalls = [] →
      runWorkflow step fuel s = some t → t.toolCalls = [] := by
  intro fuel
  induction fuel with
  | zero => intro s t _ h; cases h
  | succ n ih =>
    intro s t hs h
    simp only [runWorkflow] at h
    rcases hstep : step s with _ | s2
    · rw [hstep] at h; cases h
    · rw [hstep] at h
      have h2 : (if workflowRoute s2 = "continue" then runWorkflow step n s2
          else some s2) = some t := h
      have hs2 := hpres s s2 hstep hs
      by_cases hc : workflowRoute s2 = "continue"
      · rw [if_pos hc] at h2
        exact ih s2 t hs2 h2
      · rw [if_neg hc] at h2
        have := Option.some.inj h2
        rw [← this]
        exact hs2

/-- Claim C9: the pending-call and result scratch lists are empty at the
start of a turn (right after the user message is merged) and in the final
state of every completed turn driven by the agent node. -/
theorem c9_scratch_empty (oracle : List Message → ModelResponse)
    (registry : String → Option Tool) (systemPrompt : Option String)
    (prev : AgentStateR) (userInput : String) (fuel : Nat) (t : AgentStateR) :
    (mkTurnState prev userInput).toolCalls = []
    ∧ (mkTurnState prev userInput).toolResults = []
    ∧ (runWorkflow (nodeExecute oracle registry systemPrompt) fuel
        (mkTurnState prev userInput) = some t →
      t.toolCalls = [] ∧ t.toolResults = []) := by
  refine ⟨rfl, rfl, fun h => ⟨?_, ?_⟩⟩
  · exact runWorkflow_toolCalls_empty (nodeExecute oracle registry systemPrompt)
      (nodeExecute_toolCalls_empty oracle registry systemPrompt) fuel
      (mkTurnState prev userInput) t rfl h
  · exact runWorkflow_final_empty (nodeExecute oracle registry systemPrompt) fuel
      (mkTurnState prev userInput) t h

/-- Witness for C9: a one-step turn with a constant final answer yields a
state with both scratch lists empty. -/
theorem c9_scratch_empty_witness :
    ∃ t, runWorkflow
        (nodeExecute (fun _ => ModelResponse.mk "hello" []) (fun _ => none) none)
        1 (mkTurnState (AgentStateR.mk [] [] []) "hi") = some t
      ∧ t.toolCalls = [] ∧ t.toolResults = [] := by
  have hrun : runWorkflow
      (nodeExecute (fun _ => ModelResponse.mk "hello" []) (fun _ => none) none)
      1 (mkTurnState (AgentStateR.mk [] [] []) "hi")
      = some (AgentStateR.mk [Message.human "hi", Message.ai "hello" []] [] []) := by
    decide
  exact ⟨_, hrun, (c9_scratch_empty (fun _ => ModelResponse.mk "hello" [])
    (fun _ => none) none (AgentStateR.mk [] [] []) "hi" 1
    (AgentStateR.mk [Message.human "hi", Message.ai "hello" []] [] [])).2.2 hrun⟩

/-- Dropping zero characters is the identity. -/
theorem string_drop_zero (s : String) : s.drop 0 = s := by
  rw [String.drop_eq]
  cases s
  simp

/-- Claim C8 (amended): over the 3-step loop — a tool-call response with
empty visible content, the tool-result step, then a final answer — the
stream emits exactly one non-empty delta event carrying the final answer,
then the full message and the terminal sentinel; the tool-call step
contributes no delta. -/
theorem c8_streaming_scenario (c : String) (hc : c ≠ "") :
    processStream
      [PartialUpdate.mk (some [Message.ai "" [LCToolCall.mk "X" "search" Json.null]])
          (some [PendingToolCall.mk "search" Json.null]) (some []),
        PartialUpdate.mk none (some [])
          (some [ToolResultRecord.mk "search" (Json.str "found")]),
        PartialUpdate.mk (some [Message.tool "found" "X", Message.ai c []]) none (some [])]
      (AgentStateR.mk [Message.system "p", Message.human "q"] [] [])
    = [SSEEvent.delta c, SSEEvent.full c, SSEEvent.done] := by
  have hex : extractAIResponse (AgentStateR.mk
      [Message.system "p", Message.human "q",
        Message.ai "" [LCToolCall.mk "X" "search" Json.null],
        Message.tool "found" "X", Message.ai c []] [] []) = some c := by
    simp [extractAIResponse, extractScan, hc]
  have e1 : streamStep
      (StreamAcc.mk "" [] (AgentStateR.mk [Message.system "p", Message.human "q"] [] []))
      (PartialUpdate.mk (some [Message.ai "" [LCToolCall.mk "X" "search" Json.null]])
        (some [PendingToolCall.mk "search" Json.null]) (some []))
    = StreamAcc.mk "" [] (AgentStateR.mk
        [Message.system "p", Message.human "q",
          Message.ai "" [LCToolCall.mk "X" "search" Json.null]]
        [PendingToolCall.mk "search" Json.null] []) := by decide
  have e2 : streamStep
      (StreamAcc.mk "" [] (AgentStateR.mk
        [Message.system "p", Message.human "q",
          Message.ai "" [LCToolCall.mk "X" "search" Json.null]]
        [PendingToolCall.mk "search" Json.null] []))
      (PartialUpdate.mk none (some [])
        (some [ToolResultRecord.mk "search" (Json.str "found")]))
    = StreamAcc.mk "" [] (AgentStateR.mk
        [Message.system "p", Message.human "q",
          Message.ai "" [LCToolCall.mk "X" "search" Json.null]]
        [] [ToolResultRecord.mk "search" (Json.str "found")]) := by decide
  have happ : applyUpdate (AgentStateR.mk
      [Message.system "p", Message.human "q",
        Message.ai "" [LCToolCall.mk "X" "search" Json.null]]
      [] [ToolResultRecord.mk "search" (Json.str "found")])
      (PartialUpdate.mk (some [Message.tool "found" "X", Message.ai c []]) none (some []))
    = AgentStateR.mk
      [Message.system "p", Message.human "q",
        Message.ai "" [LCToolCall.mk "X" "search" Json.null],
        Message.tool "found" "X", Message.ai c []] [] [] := rfl
  have e3 : streamStep
      (StreamAcc.mk "" [] (AgentStateR.mk
        [Message.system "p", Message.human "q",
          Message.ai "" [LCToolCall.mk "X" "search" Json.null]]
        [] [ToolResultRecord.mk "search" (Json.str "found")]))
      (PartialUpdate.mk (some [Message.tool "found" "X", Message.ai c []]) none (some []))
    = StreamAcc.mk c [SSEEvent.delta c] (AgentStateR.mk
        [Message.system "p", Message.human "q",
          Message.ai "" [LCToolCall.mk "X" "search" Json.null],
          Message.tool "found" "X", Message.ai c []] [] []) := by
    simp only [streamStep]
    rw [happ, hex]
    simp [hc, string_drop_zero]
  have hfold : List.foldl streamStep
      (StreamAcc.mk "" [] (AgentStateR.mk [Message.system "p", Message.human "q"] [] []))
      [PartialUpdate.mk (some [Message.ai "" [LCToolCall.mk "X" "search" Json.null]])
          (some [PendingToolCall.mk "search" Json.null]) (some []),
        PartialUpdate.mk none (some [])
          (some [ToolResultRecord.mk "search" (Json.str "found")]),
        PartialUpdate.mk (some [Message.tool "found" "X", Message.ai c []]) none (some [])]
    = StreamAcc.mk c [SSEEvent.delta c] (AgentStateR.mk
        [Message.system "p", Message.human "q",
          Message.ai "" [LCToolCall.mk "X" "search" Json.null],
          Message.tool "found" "X", Message.ai c []] [] []) := by
    rw [List.foldl_cons, e1, List.foldl_cons, e2, List.foldl_cons, e3, List.foldl_nil]
  simp only [processStream]
  rw [hfold]
  simp only
  rw [hex]
  simp [hc]

/-- Witness for C8 at a concrete final answer. -/
theorem c8_streaming_scenario_witness :
    processStream
      [PartialUpdate.mk (some [Message.ai "" [LCToolCall.mk "X" "search" Json.null]])
          (some [PendingToolCall.mk "search" Json.null]) (some []),
        PartialUpdate.mk none (some [])
          (some [ToolResultRecord.mk "search" (Json.str "found")]),
        PartialUpdate.mk (some [Message.tool "found" "X", Message.ai "Sunny." []])
          none (some [])]
      (AgentStateR.mk [Message.system "p", Message.human "q"] [] [])
    = [SSEEvent.delta "Sunny.", SSEEvent.full "Sunny.", SSEEvent.done] :=
  c8_streaming_scenario "Sunny." (by decide)

/-- Counterexample to C8 as stated: a model response that carries
tool-call requests and non-empty content does contribute a visible delta
(the fallback in extractAIResponse returns the most recent AI message's
content even when it has tool calls), so the tool-call step emits a
non-empty delta. -/
theorem c8_counterexample :
    processStream
      [PartialUpdate.mk (some [Message.ai "Working" [LCToolCall.mk "X" "search" Json.null]])
          (some [PendingToolCall.mk "search" Json.null]) (some [])]
      (AgentStateR.mk [Message.system "p", Message.human "q"] [] [])
    = [SSEEvent.delta "Working", SSEEvent.full "Working", SSEEvent.done] := by decide

/-- Claim C3 evaluated on the code: a batch whose second tool throws makes
`executeTools` abort with the exception rethrown by the catch block's
`logger.error` — no record list is returned at all, although the same
first call alone succeeds with its single record. The per-call error
record the claim describes is the unreachable push after the throwing
logger call. -/
theorem c3_executor_abort_on_failure :
    executeTools
        (fun n => if n = "a" then some (Tool.mk fun _ => Except.ok (Json.str "okA"))
          else if n = "b" then some (Tool.mk fun _ => Except.error "boom")
          else none)
        [PendingToolCall.mk "a" Json.null, PendingToolCall.mk "b" Json.null]
      = Except.error (ExecError.toolFailed "b")
    ∧ executeTools
        (fun n => if n = "a" then some (Tool.mk fun _ => Except.ok (Json.str "okA"))
          else if n = "b" then some (Tool.mk fun _ => Except.error "boom")
          else none)
        [PendingToolCall.mk "a" Json.null]
      = Except.ok [ToolResultRecord.mk "a" (Json.str "okA")] :=
  ⟨rfl, rfl⟩

/-- Claim C4 evaluated on the code: a batch whose only call names an
unregistered tool makes `executeTools` abort with the rethrown logger
exception instead of recording a tool-not-found error result and
continuing. -/
theorem c4_executor_abort_on_missing_tool :
    executeTools (fun _ => none) [PendingToolCall.mk "ghost" Json.null]
      = Except.error (ExecError.toolFailed "ghost") :=
  rfl
